import Mathlib

/-!
# Verification of the bb-browser snapshot compiler and command relay

This development gives a shallow embedding, in Lean 4, of the core of the
bb-browser repository:

* the accessibility-tree compiler `formatAXTree` and its `compactTree`
  post-processing pass (`packages/extension/src/background/ax-tree-formatter.ts`),
* the pending-request table `RequestManager` and the HTTP command router
  (`packages/daemon/src/http-server.ts`), together with the connection state
  of `SSEManager`,
* the `<select>` option-matching logic of the extension's `selectOption`
  action.

TypeScript `Map` objects are embedded as association lists, JavaScript strings
as Lean `String` (one JS UTF-16 unit ≈ one Lean `Char`; all inputs of interest
are within the BMP), and the recursive tree walk of `formatAXTree` is embedded
with an explicit fuel parameter (the source recursion terminates exactly on
inputs where the walk revisits no node, and the fuel chosen by the top-level
wrapper is sufficient for every such input).  Callbacks (promise resolvers,
timers) are embedded as opaque identifiers plus an explicit effect log.
-/

namespace BB

/-! ## Association-list embedding of JS `Map` / plain objects -/

/-- `Map.get`: first binding of the key, if any. -/
def amGet [DecidableEq κ] : List (κ × α) → κ → Option α
  | [], _ => none
  | (k', v) :: m, k => if k' = k then some v else amGet m k

/-- `Map.set`: replace the binding in place, or append a fresh one. -/
def amSet [DecidableEq κ] : List (κ × α) → κ → α → List (κ × α)
  | [], k, v => [(k, v)]
  | (k', v') :: m, k, v =>
      if k' = k then (k, v) :: m else (k', v') :: amSet m k v

/-- `Map.delete`: drop the binding of the key. -/
def amDelete [DecidableEq κ] : List (κ × α) → κ → List (κ × α)
  | [], _ => []
  | (k', v') :: m, k => if k' = k then m else (k', v') :: amDelete m k

/-! ## JavaScript string primitives

The formatter manipulates its output through a small set of JS string
operations (`split('\n')`, `join('\n')`, `includes`, `trim`, `repeat`,
`slice`, regular-expression matches against three fixed patterns).  Each is
embedded below at the level of `List Char`, which keeps their algebra
elementary. -/

/-- `s.split('\n')` at the character-list level.  Always non-empty. -/
def splitNl : List Char → List (List Char)
  | [] => [[]]
  | c :: cs =>
      if c = '\n' then [] :: splitNl cs
      else
        match splitNl cs with
        | [] => [[c]]
        | l :: ls => (c :: l) :: ls

/-- `parts.join('\n')` at the character-list level. -/
def joinNl : List (List Char) → List Char
  | [] => []
  | [l] => l
  | l :: ls => l ++ '\n' :: joinNl ls

/-- `s.split('\n')` on strings. -/
def jsSplit (s : String) : List String :=
  (splitNl s.data).map fun l => ⟨l⟩

/-- `parts.join('\n')` on strings. -/
def jsJoin (ls : List String) : String :=
  ⟨joinNl (ls.map String.data)⟩

/-- `haystack.includes(needle)` at the character-list level. -/
def hasSubL (p : List Char) : List Char → Bool
  | [] => p.isEmpty
  | c :: cs => p.isPrefixOf (c :: cs) || hasSubL p cs

/-- `haystack.includes(needle)` on strings. -/
def jsIncludes (s pat : String) : Bool :=
  hasSubL pat.data s.data

/-- `'  '.repeat(depth)` — the indentation prefix used by the formatter. -/
def indentStr (depth : Nat) : String :=
  ⟨List.replicate (2 * depth) ' '⟩

/-- The whitespace class of the JS `\s` pattern and of `trim`, restricted to
the characters that can actually occur here. -/
def jsWs (c : Char) : Bool :=
  c = ' ' || c = '\t' || c = '\n' || c = '\r'

/-- `getIndentLevel`: `Math.floor(line.match(/^(\s*)/)[1].length / 2)`. -/
def getIndentLevel (line : String) : Nat :=
  (line.data.takeWhile jsWs).length / 2

/-- `truncate(text, max)`: cut to `max` chars, ellipsis included. -/
def truncate (text : String) (max : Nat) : String :=
  if text.length ≤ max then text else ⟨text.data.take (max - 3)⟩ ++ "..."

/-- `s.trim()`: strip whitespace from both ends. -/
def jsTrim (s : String) : String :=
  ⟨((s.data.dropWhile jsWs).reverse.dropWhile jsWs).reverse⟩

/-- `toLowerCase` on one character (ASCII case mapping, on which the JS
mapping agrees for all inputs of interest). -/
def jsLowerChar (c : Char) : Char :=
  if 'A' ≤ c ∧ c ≤ 'Z' then Char.ofNat (c.toNat + 32) else c

/-- `s.toLowerCase()`. -/
def jsToLower (s : String) : String :=
  ⟨s.data.map jsLowerChar⟩

/-- `role.charAt(0).toLowerCase() + role.slice(1)`. -/
def lowerFirst (s : String) : String :=
  match s.data with
  | [] => ""
  | c :: cs => ⟨jsLowerChar c :: cs⟩

/-! ## `compactTree` — removal of empty structural lines -/

/-- The inner `for (let j = i + 1; ...)` scan of `compactTree`: does any
following line, up to the first one back at (or above) the current indent
level, carry a ref marker, a quoted name, or a text marker? -/
def hasRelevantChild (cur : Nat) : List String → Bool
  | [] => false
  | l :: ls =>
      if getIndentLevel l ≤ cur then false
      else if jsIncludes l "[ref=" || jsIncludes l "\"" || jsIncludes l "- text:" then true
      else hasRelevantChild cur ls

/-- Keep / drop decision of `compactTree` for one line, given the lines that
follow it. -/
def keepLine (line : String) (rest : List String) : Bool :=
  if jsIncludes line "[ref=" then true
  else if jsIncludes line "- text:" || jsIncludes line "- /url:" then true
  else if jsIncludes line "\"" then true
  else hasRelevantChild (getIndentLevel line) rest

/-- The line-level body of `compactTree`. -/
def compactLines : List String → List String
  | [] => []
  | l :: ls => if keepLine l ls then l :: compactLines ls else compactLines ls

/-- `compactTree`: split into lines, keep marker-bearing lines and structural
lines with a relevant descendant, join back. -/
def compactTree (tree : String) : String :=
  jsJoin (compactLines (jsSplit tree))

/-! ## `selectOption` — option matching of the `select` action

Embedding of the matching logic of the `selectFn` closure in the extension's
`selectOption`: the DOM plumbing (tag check, dispatching the change event) is
outside the scope of the matching claims; the thrown "Option not found" error,
whose message renders the available options via `JSON.stringify`, is embedded
as a structured error value carrying the same `(value, label)` list. -/

/-- One `<option>` element: its `value` attribute and its `textContent`. -/
structure OptionEl where
  value : String
  textContent : String
  deriving DecidableEq, Repr

/-- Outcome of the option-matching logic. -/
inductive SelectOutcome where
  /-- `{ selectedValue, selectedLabel }` returned on a match. -/
  | ok (selectedValue selectedLabel : String)
  /-- The thrown `Option not found` error, carrying the query and the
  available `(value, label)` pairs. -/
  | notFound (query : String) (available : List (String × String))
  deriving DecidableEq, Repr

/-- First loop of `selectFn`:
`opt.value === selectValue || opt.textContent.trim() === selectValue`,
first hit wins. -/
def findMatchExact : List OptionEl → String → Option OptionEl
  | [], _ => none
  | o :: os, q =>
      if o.value = q || jsTrim o.textContent = q then some o else findMatchExact os q

/-- Second loop of `selectFn`: the same comparison after `toLowerCase` on
both sides (`lower` is the lower-cased query). -/
def findMatchLower : List OptionEl → String → Option OptionEl
  | [], _ => none
  | o :: os, lower =>
      if jsToLower o.value = lower || jsToLower (jsTrim o.textContent) = lower then some o
      else findMatchLower os lower

/-- The matching logic of `selectFn`: exact pass, then case-insensitive pass,
then the error carrying every available option. -/
def selectOption (options : List OptionEl) (selectValue : String) : SelectOutcome :=
  match findMatchExact options selectValue with
  | some m => .ok m.value (jsTrim m.textContent)
  | none =>
      match findMatchLower options (jsToLower selectValue) with
      | some m => .ok m.value (jsTrim m.textContent)
      | none => .notFound selectValue (options.map fun o => (o.value, jsTrim o.textContent))

/-! ## `RequestManager` — the pending-request table

`resolve`/`reject` callbacks of the suspended HTTP caller and `setTimeout`
handles are opaque on the JS side; they are embedded as `Nat` identifiers, and
every externally visible action on them (arming or cancelling a timer,
invoking a callback) is recorded in an explicit effect list. -/

/-- The JSON `Response` document posted by the extension
(`{id, success, data?, error?}`); the action-specific `data` payload is
opaque here. -/
structure ResponseV where
  id : String
  success : Bool
  data : Option String
  error : Option String
  deriving DecidableEq, Repr

/-- One entry of the pending map: the two promise callbacks and the armed
timeout, as opaque handles. -/
structure PendingRequest where
  resolveCb : Nat
  rejectCb : Nat
  timeout : Nat
  deriving DecidableEq, Repr

/-- State of a `RequestManager`: the `pending` map plus a counter used to
issue fresh timer handles (standing in for `setTimeout`'s return values). -/
structure RMState where
  pending : List (String × PendingRequest)
  nextTimer : Nat
  deriving DecidableEq, Repr

/-- Externally visible actions taken by the request manager. -/
inductive RMEffect where
  /-- `setTimeout(...)` arming the handle. -/
  | setTimer (handle : Nat)
  /-- `clearTimeout(handle)`. -/
  | clearTimer (handle : Nat)
  /-- `pendingRequest.resolve(response)`. -/
  | invokeResolve (cb : Nat) (response : ResponseV)
  /-- `pendingRequest.reject(new Error(msg))`. -/
  | invokeReject (cb : Nat) (msg : String)
  deriving DecidableEq, Repr

/-- `RequestManager.pendingCount`. -/
def RMState.pendingCount (st : RMState) : Nat :=
  st.pending.length

/-- `RequestManager.add(requestId, resolve, reject)`: arm a timeout and store
the entry. -/
def RMState.add (st : RMState) (requestId : String) (cbR cbJ : Nat) :
    RMState × List RMEffect :=
  let t := st.nextTimer
  (⟨amSet st.pending requestId ⟨cbR, cbJ, t⟩, t + 1⟩, [.setTimer t])

/-- `RequestManager.resolve(requestId, response)`: returns whether a pending
entry was found; if so, cancels its timeout, removes it and invokes its
resolver. -/
def RMState.resolve (st : RMState) (requestId : String) (response : ResponseV) :
    Bool × RMState × List RMEffect :=
  match amGet st.pending requestId with
  | none => (false, st, [])
  | some p =>
      (true, ⟨amDelete st.pending requestId, st.nextTimer⟩,
        [.clearTimer p.timeout, .invokeResolve p.resolveCb response])

/-- The private `timeout(requestId)` firer: remove the entry and reject the
caller; a no-op when the entry is already gone. -/
def RMState.timeoutFire (st : RMState) (requestId : String) :
    RMState × List RMEffect :=
  match amGet st.pending requestId with
  | none => (st, [])
  | some p =>
      (⟨amDelete st.pending requestId, st.nextTimer⟩,
        [.invokeReject p.rejectCb "Command timeout"])

/-- `RequestManager.clear()`: cancel every timer, reject every caller, empty
the map. -/
def RMState.clear (st : RMState) : RMState × List RMEffect :=
  (⟨[], st.nextTimer⟩,
    st.pending.flatMap fun e =>
      [.clearTimer e.2.timeout, .invokeReject e.2.rejectCb "Daemon shutting down"])

/-! ## `SSEManager` connection state and the HTTP command router -/

/-- The held `ServerResponse` stream of the single SSE connection: whether the
peer already ended it, and whether a `write` on it currently succeeds
(`write` throwing is embedded as `writeOk = false`). -/
structure SSEConn where
  writableEnded : Bool
  writeOk : Bool
  deriving DecidableEq, Repr

/-- Connection state of `SSEManager` (the push-channel manager). -/
structure SSEState where
  connection : Option SSEConn
  deriving DecidableEq, Repr

/-- `SSEManager.isConnected`:
`this.connection !== null && !this.connection.writableEnded`. -/
def SSEState.isConnected (s : SSEState) : Bool :=
  match s.connection with
  | none => false
  | some c => !c.writableEnded

/-- `SSEManager.sendEvent` / `sendCommand`: false when disconnected or ended,
otherwise the success of the two `write` calls. -/
def SSEState.sendCommand (s : SSEState) : Bool :=
  match s.connection with
  | none => false
  | some c => if c.writableEnded then false else c.writeOk

/-- The JSON `Request` document posted by the CLI (`{id, action, ...}`); the
action-specific payload is opaque here. -/
structure RequestV where
  id : String
  action : String
  payload : Option String
  deriving DecidableEq, Repr

/-- What `handleCommand` replies on its synchronous paths, or that it is left
awaiting the pending entry's resolution. -/
inductive CommandReply where
  /-- An immediate JSON reply `{id, success, error}` with the HTTP status. -/
  | immediate (status : Nat) (id : String) (success : Bool) (error : String)
  /-- The request was registered and pushed; the HTTP reply is deferred until
  the pending entry resolves, times out, or is cleared. -/
  | awaitResult
  deriving DecidableEq, Repr

/-- `HttpServer.handleCommand` on a parsed request: the disconnected check,
registration in the pending table, the push, and the failed-push rollback.
`cbR`/`cbJ` are the resolver/rejecter of the created response promise. -/
def handleCommand (sse : SSEState) (rm : RMState) (req : RequestV) (cbR cbJ : Nat) :
    CommandReply × RMState × List RMEffect :=
  if !sse.isConnected then
    (.immediate 503 req.id false "Extension not connected", rm, [])
  else
    let a := rm.add req.id cbR cbJ
    if !sse.sendCommand then
      let r := a.1.resolve req.id
        ⟨req.id, false, none, some "Failed to send command to extension"⟩
      (.immediate 503 req.id false "Failed to send command to extension",
        r.2.1, a.2 ++ r.2.2)
    else
      (.awaitResult, a.1, a.2)

/-- The `{code, message}` envelope (with HTTP status) of `POST /result`. -/
structure ResultReply where
  status : Nat
  code : Int
  message : String
  deriving DecidableEq, Repr

/-- `HttpServer.handleResult` on a parsed result document. -/
def handleResult (rm : RMState) (result : ResponseV) :
    ResultReply × RMState × List RMEffect :=
  let r := rm.resolve result.id result
  if r.1 then (⟨200, 0, "ok"⟩, r.2.1, r.2.2)
  else (⟨200, 1, "Request not found or already expired"⟩, r.2.1, r.2.2)

/-! ## The accessibility-tree compiler `formatAXTree`

Data model of CDP `Accessibility.getFullAXTree` nodes, restricted to the
fields the formatter reads.  `AXValueStr.value` embeds the `value` field of a
CDP `AXValue` (its `type` tag is never read); `AXProperty.value` embeds
`property.value.value`, rendered to a string the way template interpolation
would render it. -/

/-- A CDP `AXValue`, reduced to its `value` payload. -/
structure AXValueStr where
  value : Option String
  deriving DecidableEq, Repr

/-- One entry of `AXNode.properties`. -/
structure AXProperty where
  name : String
  value : Option String
  deriving DecidableEq, Repr

/-- A raw accessibility node. -/
structure AXNode where
  nodeId : String
  ignored : Bool
  role : Option AXValueStr
  name : Option AXValueStr
  properties : List AXProperty
  childIds : List String
  backendDOMNodeId : Option Nat
  deriving DecidableEq, Repr

/-- `FormatOptions` (`interactive?`, `compact?`, `maxDepth?`). -/
structure FormatOptions where
  interactive : Bool
  compact : Bool
  maxDepth : Option Nat
  deriving DecidableEq, Repr

/-- An entry of the reference table (`AXRefInfo`). -/
structure AXRefInfo where
  backendDOMNodeId : Nat
  role : String
  name : Option String
  nth : Option Nat
  deriving DecidableEq, Repr

/-- The fixed interactive-role set. -/
def INTERACTIVE_ROLES : List String :=
  ["button", "link", "textbox", "searchbox", "combobox", "listbox",
   "checkbox", "radio", "slider", "spinbutton", "switch",
   "tab", "menuitem", "menuitemcheckbox", "menuitemradio",
   "option", "treeitem"]

/-- The fixed noise-role set skipped by the traversal. -/
def SKIP_ROLES : List String :=
  ["none", "InlineTextBox", "LineBreak", "Ignored"]

/-- Content roles that also get a ref in full mode. -/
def CONTENT_ROLES_WITH_REF : List String :=
  ["heading", "img", "cell", "columnheader", "rowheader"]

/-- `getProperty(node, propName)`: the `value.value` of the first matching
property. -/
def getProperty (node : AXNode) (propName : String) : Option String :=
  (node.properties.find? fun p => p.name == propName).bind AXProperty.value

/-- `node.role?.value || ''`. -/
def roleOf (node : AXNode) : String :=
  (node.role.bind AXValueStr.value).getD ""

/-- `node.name?.value?.trim() || ''`. -/
def trimmedName (node : AXNode) : String :=
  ((node.name.bind AXValueStr.value).map jsTrim).getD ""

/-- `RoleNameTracker.getKey`: `` `${role}:${name ?? ''}` ``. -/
def getKey (role : String) (name : Option String) : String :=
  role ++ ":" ++ name.getD ""

/-- `shouldAssignRef(role)` as determined by the filtering mode. -/
def shouldAssignRef (opts : FormatOptions) (role : String) : Bool :=
  if opts.interactive then INTERACTIVE_ROLES.contains role
  else INTERACTIVE_ROLES.contains role || CONTENT_ROLES_WITH_REF.contains role

/-- Negation of the `maxDepth !== undefined && depth > maxDepth` early
return. -/
def depthOk (opts : FormatOptions) (depth : Nat) : Bool :=
  match opts.maxDepth with
  | some m => decide (depth ≤ m)
  | none => true

/-- Traversal state of one `formatAXTree` run.  `lines`, `refs`, `refCounter`
and the two tracker maps are the mutable locals of the source; `visits` (the
processed nodes with their depths, in visit order) and `refLines` (the
rendered line of each assigned reference, aligned with `refs`) are ghost
fields recorded for specification only — no source behaviour depends on
them. -/
structure FmtState where
  lines : List String
  refs : List (String × AXRefInfo)
  refCounter : Nat
  counts : List (String × Nat)
  refsByKey : List (String × List String)
  visits : List (AXNode × Nat)
  refLines : List String
  deriving DecidableEq, Repr

/-- The empty initial state. -/
def initFmtState : FmtState :=
  ⟨[], [], 0, [], [], [], []⟩

/-- Read-only context of one run: the `nodeId → AXNode` index, the
`backendDOMNodeId → url` map, and the options. -/
structure FmtCtx where
  nodeMap : List (String × AXNode)
  urlMap : List (Nat × String)
  opts : FormatOptions
  deriving Repr

/-- JS `String(n)` on a non-negative number: decimal digits, no leading
zeros, embedded directly so that its algebra stays elementary (Lean's own
`toString` on `Nat` renders the same text). -/
def natToDigitsAux : Nat → Nat → List Char
  | 0, _ => []
  | fuel + 1, n =>
      if n < 10 then [Nat.digitChar n]
      else natToDigitsAux fuel (n / 10) ++ [Nat.digitChar (n % 10)]

/-- JS `String(n)` for `n : Nat`. -/
def natToStr (n : Nat) : String :=
  ⟨natToDigitsAux (n + 1) n⟩

/-- Decimal value of a digit string (specification-side inverse of
`natToStr`). -/
def strVal (l : List Char) : Nat :=
  l.foldl (fun a c => a * 10 + (c.toNat - 48)) 0

/-- Line construction and reference assignment for one emitted node
(source lines 227–258): the display role, quoted name and heading level are
rendered, then — when the role is assignable and a backing id exists — the
next sequential handle is issued, the role/name tracker is bumped
(`getNextIndex` / `trackRef`), the `[ref=]`/`[nth=]` markers are appended and
the table entry is stored.  Returns the finished line and the new state. -/
def assignStep (opts : FormatOptions) (node : AXNode) (depth : Nat)
    (role name : String) (st : FmtState) : String × FmtState :=
  let displayRole := lowerFirst role
  let line := indentStr depth ++ "- " ++ displayRole
  let line := if name ≠ "" then line ++ " \"" ++ truncate name 50 ++ "\"" else line
  let line :=
    match getProperty node "level" with
    | some lv => line ++ " [level=" ++ lv ++ "]"
    | none => line
  if shouldAssignRef opts role ∧ node.backendDOMNodeId.isSome then
    let ref := natToStr st.refCounter
    let nameOpt : Option String := if name = "" then none else some name
    let key := getKey role nameOpt
    let nth := (amGet st.counts key).getD 0
    let line := line ++ " [ref=" ++ ref ++ "]" ++
      (if 0 < nth then " [nth=" ++ natToStr nth ++ "]" else "")
    let info : AXRefInfo :=
      ⟨node.backendDOMNodeId.getD 0, displayRole, nameOpt, some nth⟩
    (line,
     { st with
        refCounter := st.refCounter + 1,
        counts := amSet st.counts key (nth + 1),
        refsByKey := amSet st.refsByKey key ((amGet st.refsByKey key).getD [] ++ [ref]),
        refs := st.refs ++ [(ref, info)],
        refLines := st.refLines ++ [line] })
  else (line, st)

/-- The `for (const childId of node.childIds || [])` loop, over an abstract
recursion function `rec2` (instantiated with `traverse` at one fuel less). -/
def traverseChildren (rec2 : String → Nat → FmtState → FmtState)
    (ids : List String) (depth : Nat) (st : FmtState) : FmtState :=
  List.foldl (fun s c => rec2 c depth s) st ids

/-- Body of one `traverse(nodeId, depth)` call after the node lookup
succeeded (source lines 178–283), over an abstract recursion function for the
child visits.  The visited node is first appended to the ghost `visits`
log. -/
def traverseBody (ctx : FmtCtx) (rec2 : String → Nat → FmtState → FmtState)
    (node : AXNode) (depth : Nat) (st : FmtState) : FmtState :=
  let st := { st with visits := st.visits ++ [(node, depth)] }
  if node.ignored then
    traverseChildren rec2 node.childIds depth st
  else if ¬ depthOk ctx.opts depth then st
  else
    let role := roleOf node
    if SKIP_ROLES.contains role then
      traverseChildren rec2 node.childIds depth st
    else
      let name := trimmedName node
      let isInteractive := INTERACTIVE_ROLES.contains role
      if ctx.opts.interactive ∧ ¬ isInteractive then
        traverseChildren rec2 node.childIds depth st
      else if role = "StaticText" then
        if name ≠ "" then
          { st with lines := st.lines ++ [indentStr depth ++ "- text: " ++ truncate name 100] }
        else st
      else if (role = "GenericContainer" ∨ role = "generic") ∧ name = "" then
        traverseChildren rec2 node.childIds depth st
      else
        let a := assignStep ctx.opts node depth role name st
        let urlOpt : Option String :=
          if ¬ ctx.opts.interactive ∧ role = "link" ∧ node.backendDOMNodeId.isSome then
            match amGet ctx.urlMap (node.backendDOMNodeId.getD 0) with
            | some url => if url = "" then none else some url
            | none => none
          else none
        match urlOpt with
        | some url =>
            traverseChildren rec2 node.childIds (depth + 1)
              { a.2 with
                  lines := a.2.lines ++
                    [a.1, indentStr (depth + 1) ++ "- /url: " ++ url] }
        | none =>
            let st' := { a.2 with lines := a.2.lines ++ [a.1] }
            if ctx.opts.interactive then st'
            else traverseChildren rec2 node.childIds (depth + 1) st'

/-- The recursive `traverse(nodeId, depth)` of `formatAXTree`, fuel-indexed
(see the header note on fuel). -/
def traverse (ctx : FmtCtx) : Nat → String → Nat → FmtState → FmtState
  | 0, _, _, st => st
  | Nat.succ fuel, nodeId, depth, st =>
    match amGet ctx.nodeMap nodeId with
    | none => st
    | some node => traverseBody ctx (fun c d s => traverse ctx fuel c d s) node depth st

/-- `RoleNameTracker.getDuplicateKeys`: keys tracked for more than one
ref. -/
def getDuplicateKeys (refsByKey : List (String × List String)) : List String :=
  (refsByKey.filter fun e => 1 < e.2.length).map Prod.fst

/-- `removeNthFromNonDuplicates`: drop `nth` from entries whose role/name key
is not duplicated. -/
def removeNthFromNonDuplicates (refs : List (String × AXRefInfo))
    (dupKeys : List String) : List (String × AXRefInfo) :=
  refs.map fun e =>
    if dupKeys.contains (getKey e.2.role e.2.name) then e
    else (e.1, { e.2 with nth := none })

/-! ### The three fixed regular expressions of the line cleanup pass

`/\[nth=0\]/` and the literal replacement `' [nth=0]'`, the capture
`/\[ref=(\d+)\].*\[nth=\d+\]/`, and the removal `/\s*\[nth=\d+\]/` are
implemented directly over character lists with JS leftmost-match
semantics. -/

/-- Remove the first occurrence of the literal `pat`
(`line.replace(' [nth=0]', '')`). -/
def removeFirstL (pat : List Char) : List Char → List Char
  | [] => []
  | c :: cs =>
      if pat.isPrefixOf (c :: cs) then (c :: cs).drop pat.length
      else c :: removeFirstL pat cs

/-- Match `\[nth=\d+\]` at the head of the list; on success return the
remainder after the closing bracket. -/
def tryNthAt (l : List Char) : Option (List Char) :=
  if "[nth=".data.isPrefixOf l then
    let rest := l.drop 5
    let ds := rest.takeWhile Char.isDigit
    if ds.isEmpty then none
    else if (rest.drop ds.length).head? = some ']' then
      some ((rest.drop ds.length).tail)
    else none
  else none

/-- Does `\[nth=\d+\]` match anywhere in the list? -/
def hasNthMarkerL : List Char → Bool
  | [] => false
  | c :: cs => (tryNthAt (c :: cs)).isSome || hasNthMarkerL cs

/-- Match `\[ref=(\d+)\]` at the head of the list; on success return the
captured digits and the remainder. -/
def tryRefAt (l : List Char) : Option (List Char × List Char) :=
  if "[ref=".data.isPrefixOf l then
    let rest := l.drop 5
    let ds := rest.takeWhile Char.isDigit
    if ds.isEmpty then none
    else if (rest.drop ds.length).head? = some ']' then
      some (ds, (rest.drop ds.length).tail)
    else none
  else none

/-- `line.match(/\[ref=(\d+)\].*\[nth=\d+\]/)`: leftmost position where the
whole pattern matches; returns the captured handle digits. -/
def scanRefNth : List Char → Option String
  | [] => none
  | c :: cs =>
      match tryRefAt (c :: cs) with
      | some dr => if hasNthMarkerL dr.2 then some ⟨dr.1⟩ else scanRefNth cs
      | none => scanRefNth cs

/-- Match `\s*\[nth=\d+\]` at this position (the whitespace run must lead
straight into the bracket); on success return the remainder after the
match. -/
def matchWsNthAt (l : List Char) : Option (List Char) :=
  tryNthAt (l.dropWhile jsWs)

/-- `line.replace(/\s*\[nth=\d+\]/, '')`: remove the leftmost match. -/
def removeNthMarkerL : List Char → List Char
  | [] => []
  | c :: cs =>
      match matchWsNthAt (c :: cs) with
      | some r => r
      | none => c :: removeNthMarkerL cs

/-- The per-line cleanup applied after traversal (source lines 292–311):
strip a literal `' [nth=0]'`, and strip the `[nth=]` marker from lines whose
referenced entry is not in a duplicate group. -/
def cleanLine (refs : List (String × AXRefInfo)) (dupKeys : List String)
    (line : String) : String :=
  if jsIncludes line "[nth=0]" then ⟨removeFirstL " [nth=0]".data line.data⟩
  else
    match scanRefNth line.data with
    | some refId =>
        match amGet refs refId with
        | some info =>
            if dupKeys.contains (getKey info.role info.name) then line
            else ⟨removeNthMarkerL line.data⟩
        | none => line
    | none => line

/-- Full result of one compilation, with the traversal state kept for
specification purposes. -/
structure XResult where
  st : FmtState
  dupKeys : List String
  refsFinal : List (String × AXRefInfo)
  cleanedLines : List String
  snapshot : String
  deriving Repr

/-- `formatAXTree`, instrumented: build the node index, walk from the first
node, run the duplicate cleanup, join, optionally compact, and fall back to
`'(empty)'`.  The fuel `nodes.length + 1` never truncates a traversal that
visits no node twice.  The `refs` record of the source iterates its keys
(decimal strings issued in increasing order) in insertion order, so it is
kept as the association list `refsFinal`. -/
def formatAXTreeX (nodes : List AXNode) (urlMap : List (Nat × String))
    (opts : FormatOptions) : XResult :=
  let nodeMap := nodes.foldl (fun m n => amSet m n.nodeId n) []
  match nodes with
  | [] => ⟨initFmtState, [], [], [], "(empty)"⟩
  | root :: _ =>
      let ctx : FmtCtx := ⟨nodeMap, urlMap, opts⟩
      let st := traverse ctx (nodes.length + 1) root.nodeId 0 initFmtState
      let dupKeys := getDuplicateKeys st.refsByKey
      let refsFinal := removeNthFromNonDuplicates st.refs dupKeys
      let cleaned := st.lines.map (cleanLine refsFinal dupKeys)
      let snap0 := jsJoin cleaned
      let snap1 := if opts.compact then compactTree snap0 else snap0
      ⟨st, dupKeys, refsFinal, cleaned, if snap1 = "" then "(empty)" else snap1⟩

/-- `FormatResult`: the exposed pair. -/
structure FormatResult where
  snapshot : String
  refs : List (String × AXRefInfo)
  deriving Repr

/-- The exported `formatAXTree`. -/
def formatAXTree (nodes : List AXNode) (urlMap : List (Nat × String))
    (opts : FormatOptions) : FormatResult :=
  let x := formatAXTreeX nodes urlMap opts
  ⟨x.snapshot, x.refsFinal⟩

/-! ### Specification-side predicates for the formatter claims -/

/-- C1's literal notion of reference eligibility: eligible role and a backing
element identifier, nothing else. -/
def claimEligible (opts : FormatOptions) (n : AXNode) : Bool :=
  shouldAssignRef opts (roleOf n) && n.backendDOMNodeId.isSome

/-- A visit actually assigns a handle iff the node is not ignored, within the
depth limit, of assignable role, and backed by an element id. -/
def qualifies (opts : FormatOptions) (v : AXNode × Nat) : Bool :=
  !v.1.ignored && depthOk opts v.2 && shouldAssignRef opts (roleOf v.1)
    && v.1.backendDOMNodeId.isSome

/-- The identifying core (backing id, display role, display name) of a
visited node, as it would be stored in its table entry. -/
def visitCore (v : AXNode × Nat) : Nat × String × Option String :=
  (v.1.backendDOMNodeId.getD 0, lowerFirst (roleOf v.1),
   if trimmedName v.1 = "" then none else some (trimmedName v.1))

/-- The identifying core of a stored table entry. -/
def entryCore (i : AXRefInfo) : Nat × String × Option String :=
  (i.backendDOMNodeId, i.role, i.name)

/-- A string free of the formatter's two bracket markers. -/
def noMark (s : String) : Prop :=
  jsIncludes s "[ref=" = false ∧ jsIncludes s "[nth=" = false

/-- Input cleanliness: the rendered name and property values of a node spell
no `[ref=` / `[nth=` of their own. -/
def cleanNode (n : AXNode) : Prop :=
  noMark (truncate (trimmedName n) 50) ∧ ∀ p ∈ n.properties, noMark (p.value.getD "")

/-- Input cleanliness of a whole node list. -/
def CleanInputs (nodes : List AXNode) : Prop :=
  ∀ n ∈ nodes, cleanNode n

/-! ### The traversal invariant

`entryKey` is the tracker key as recomputed from a stored table entry (equal,
for every entry the formatter creates, to the key used when it was tracked);
`Inv` collects everything that holds of the traversal state at every point of
every run. -/

/-- The tracker key of a stored entry. -/
def entryKey (i : AXRefInfo) : String :=
  getKey i.role i.name

/-- Number of entries of `refs` sharing the tracker key `k`. -/
def countKey (refs : List (String × AXRefInfo)) (k : String) : Nat :=
  refs.countP fun e => entryKey e.2 == k

/-- Same (role, display-name) pair of two table entries. -/
def samePair (e e' : String × AXRefInfo) : Bool :=
  e'.2.role == e.2.role && e'.2.name == e.2.name

/-- Every node reachable through the context's node index is clean. -/
def CleanCtx (ctx : FmtCtx) : Prop :=
  ∀ n ∈ ctx.nodeMap.map Prod.snd, cleanNode n

/-- Shape of the recorded line of the `i`-th assigned reference: a base
(indent, dash, role, quoted name, level), the `[ref=]` marker with the
entry's handle, and the `[nth=]` marker exactly when the entry's (pre-cleanup)
duplicate index is positive.  Under a clean context the base spells no marker
of its own. -/
def LineSpec (ctx : FmtCtx) (st : FmtState) : Prop :=
  ∀ i (hi : i < st.refs.length) (hj : i < st.refLines.length),
    ∃ base : String,
      st.refLines.get ⟨i, hj⟩ =
        base ++ " [ref=" ++ (st.refs.get ⟨i, hi⟩).1 ++ "]" ++
          (if 0 < (st.refs.get ⟨i, hi⟩).2.nth.getD 0 then
            " [nth=" ++ natToStr ((st.refs.get ⟨i, hi⟩).2.nth.getD 0) ++ "]"
          else "") ∧
      (CleanCtx ctx → noMark base)

/-- The traversal invariant. -/
structure Inv (ctx : FmtCtx) (st : FmtState) : Prop where
  counter_eq : st.refCounter = st.refs.length
  handles : st.refs.map Prod.fst = (List.range st.refs.length).map natToStr
  counts_ok : ∀ k, (amGet st.counts k).getD 0 = countKey st.refs k
  byKey_ok : ∀ k, (amGet st.refsByKey k).getD [] =
    (st.refs.filter fun e => entryKey e.2 == k).map Prod.fst
  byKey_nodup : (st.refsByKey.map Prod.fst).Nodup
  nth_ok : ∀ l₁ e l₂, st.refs = l₁ ++ e :: l₂ →
    e.2.nth = some (countKey l₁ (entryKey e.2))
  roles_ok : ∀ e ∈ st.refs,
    e.2.role ∈ INTERACTIVE_ROLES ∨ e.2.role ∈ CONTENT_ROLES_WITH_REF
  name_ok : ∀ e ∈ st.refs, e.2.name ≠ some ""
  align : st.refLines.length = st.refs.length
  core_ok : st.refs.map (fun e => entryCore e.2) =
    (st.visits.filter (qualifies ctx.opts)).map visitCore
  visits_src : ∀ v ∈ st.visits, v.1 ∈ ctx.nodeMap.map Prod.snd
  lines_mem : ∀ l ∈ st.refLines, l ∈ st.lines
  line_spec : LineSpec ctx st

/-! ### Named pieces of `assignStep`'s positive branch

These name the subterms of `assignStep` (they unfold to exactly the let-bound
expressions of the source translation) so that the invariant proofs can speak
about them. -/

/-- The stem-name-level part of one emitted line, before any markers. -/
def renderBase (node : AXNode) (depth : Nat) (role name : String) : String :=
  let displayRole := lowerFirst role
  let line := indentStr depth ++ "- " ++ displayRole
  let line := if name ≠ "" then line ++ " \"" ++ truncate name 50 ++ "\"" else line
  match getProperty node "level" with
  | some lv => line ++ " [level=" ++ lv ++ "]"
  | none => line

/-- The tracker key used by `assignStep` for a rendered role and name. -/
def keyOf (role name : String) : String :=
  getKey role (if name = "" then none else some name)

/-- The duplicate index `assignStep` reads off the counts tracker. -/
def nthOf (st : FmtState) (role name : String) : Nat :=
  (amGet st.counts (keyOf role name)).getD 0

/-- The finished line emitted for an assigned reference. -/
def lineOf (node : AXNode) (depth : Nat) (role name : String) (st : FmtState) :
    String :=
  renderBase node depth role name ++ " [ref=" ++ natToStr st.refCounter ++ "]" ++
    (if 0 < nthOf st role name then " [nth=" ++ natToStr (nthOf st role name) ++ "]"
     else "")

/-- The table entry stored for an assigned reference. -/
def infoOf (node : AXNode) (role name : String) (st : FmtState) : AXRefInfo :=
  ⟨node.backendDOMNodeId.getD 0, lowerFirst role,
    if name = "" then none else some name, some (nthOf st role name)⟩

/-- The state after `assignStep` assigns a reference. -/
def pushState (node : AXNode) (depth : Nat) (role name : String)
    (st : FmtState) : FmtState :=
  { st with
    refCounter := st.refCounter + 1,
    counts := amSet st.counts (keyOf role name) (nthOf st role name + 1),
    refsByKey := amSet st.refsByKey (keyOf role name)
      ((amGet st.refsByKey (keyOf role name)).getD [] ++ [natToStr st.refCounter]),
    refs := st.refs ++ [(natToStr st.refCounter, infoOf node role name st)],
    refLines := st.refLines ++ [lineOf node depth role name st] }

/-! ## Concrete inputs used by counterexamples and witnesses -/

/-- Shorthand node constructor for concrete inputs. -/
def mkNode (id : String) (ign : Bool) (role : Option String) (nm : Option String)
    (ch : List String) (bid : Option Nat) : AXNode :=
  ⟨id, ign, role.map (⟨some ·⟩), nm.map (⟨some ·⟩), [], ch, bid⟩

/-- The all-default `FormatOptions` (`{}` at the call site). -/
def defaultOpts : FormatOptions := ⟨false, false, none⟩

/-- An ignored button (eligible role, backing id present) wrapping a plain
button: the ignored node is the first reference-eligible node in depth-first
order, yet is skipped by the traversal. -/
def exIgnored : List AXNode :=
  [mkNode "1" true (some "button") none ["2"] (some 5),
   mkNode "2" false (some "button") none [] (some 7)]

/-- A single bare structural node: rendered in full mode, dropped entirely by
compact mode. -/
def exNav : List AXNode :=
  [mkNode "1" false (some "navigation") none [] none]

/-- A heading followed by two identically named buttons whose display name
itself spells `[ref=0]`, which derails the duplicate-marker cleanup. -/
def exTricky : List AXNode :=
  [mkNode "1" false (some "heading") (some "T") ["2", "3"] (some 1),
   mkNode "2" false (some "button") (some "x [ref=0]") [] (some 2),
   mkNode "3" false (some "button") (some "x [ref=0]") [] (some 3)]

/-- An ignored wrapper over two buttons both named "Save" and one named
"Open": the canonical duplicate-marker example. -/
def exSave : List AXNode :=
  [mkNode "1" true none none ["2", "3", "4"] none,
   mkNode "2" false (some "button") (some "Save") [] (some 2),
   mkNode "3" false (some "button") (some "Save") [] (some 3),
   mkNode "4" false (some "button") (some "Open") [] (some 4)]

/-! # Theorems

First the association-list toolbox, then the claims, grouped by component. -/

theorem amGet_amSet_self [DecidableEq κ] (m : List (κ × α)) (k : κ) (v : α) :
    amGet (amSet m k v) k = some v := by
  induction m with
  | nil => simp [amSet, amGet]
  | cons e m ih =>
      obtain ⟨k', v'⟩ := e
      by_cases h : k' = k
      · simp [amSet, h, amGet]
      · simp [amSet, h, amGet, ih]

theorem amGet_amSet_ne [DecidableEq κ] (m : List (κ × α)) (k k' : κ) (v : α)
    (h : k' ≠ k) : amGet (amSet m k v) k' = amGet m k' := by
  induction m with
  | nil => simp [amSet, amGet, Ne.symm h]
  | cons e m ih =>
      obtain ⟨k₀, v₀⟩ := e
      by_cases h₀ : k₀ = k
      · subst h₀
        simp [amSet, amGet, Ne.symm h]
      · by_cases h₁ : k₀ = k'
        · subst h₁
          simp [amSet, h₀, amGet]
        · simp [amSet, h₀, amGet, h₁, ih]

theorem amGet_eq_none_of_not_mem [DecidableEq κ] (m : List (κ × α)) (k : κ)
    (h : k ∉ m.map Prod.fst) : amGet m k = none := by
  induction m with
  | nil => rfl
  | cons e m ih =>
      obtain ⟨k', v'⟩ := e
      simp only [List.map_cons, List.mem_cons] at h
      push_neg at h
      simp [amGet, Ne.symm h.1, ih h.2]

theorem amGet_isSome_iff_mem [DecidableEq κ] (m : List (κ × α)) (k : κ) :
    (amGet m k).isSome ↔ k ∈ m.map Prod.fst := by
  induction m with
  | nil => simp [amGet]
  | cons e m ih =>
      obtain ⟨k', v'⟩ := e
      by_cases h : k' = k
      · subst h; simp [amGet]
      · simp [amGet, h, ih, Ne.symm h]

theorem keys_amSet [DecidableEq κ] (m : List (κ × α)) (k : κ) (v : α) :
    (amSet m k v).map Prod.fst =
      if k ∈ m.map Prod.fst then m.map Prod.fst else m.map Prod.fst ++ [k] := by
  induction m with
  | nil => simp [amSet]
  | cons e m ih =>
      obtain ⟨k', v'⟩ := e
      by_cases h : k' = k
      · subst h; simp [amSet]
      · simp only [amSet, if_neg h, List.map_cons, ih, List.mem_cons]
        by_cases hm : k ∈ m.map Prod.fst
        · simp [hm, Ne.symm h]
        · simp [hm, Ne.symm h]

theorem nodup_keys_amSet [DecidableEq κ] (m : List (κ × α)) (k : κ) (v : α)
    (h : (m.map Prod.fst).Nodup) : ((amSet m k v).map Prod.fst).Nodup := by
  rw [keys_amSet]
  by_cases hm : k ∈ m.map Prod.fst
  · simpa [hm] using h
  · rw [if_neg hm]
    exact List.Nodup.append h (List.nodup_singleton k)
      ((List.disjoint_singleton).mpr hm)

theorem amGet_amDelete_self [DecidableEq κ] (m : List (κ × α)) (k : κ)
    (h : (m.map Prod.fst).Nodup) : amGet (amDelete m k) k = none := by
  induction m with
  | nil => rfl
  | cons e m ih =>
      obtain ⟨k', v'⟩ := e
      simp only [List.map_cons, List.nodup_cons] at h
      by_cases hk : k' = k
      · subst hk
        simpa [amDelete] using amGet_eq_none_of_not_mem m k' h.1
      · simp [amDelete, hk, amGet, hk, ih h.2]

theorem not_mem_keys_amDelete [DecidableEq κ] (m : List (κ × α)) (k : κ)
    (h : (m.map Prod.fst).Nodup) : k ∉ (amDelete m k).map Prod.fst := by
  intro hmem
  have := (amGet_isSome_iff_mem (amDelete m k) k).mpr hmem
  rw [amGet_amDelete_self m k h] at this
  simp at this

/-! ## C4 — the pending-request table resolves an identifier exactly once -/

/-- **C4.** After `add(id)` creates a pending entry, the first
`resolve(id, result)` returns `true`, cancels the armed timeout and invokes
the stored resolver, and removes the entry; afterwards the identifier is
absent from the table, so a second `resolve` returns `false` with no effects,
the timeout firer is a no-op, and `clear` (which only acts on entries still
present) cannot touch it. -/
theorem c4_resolve_exactly_once (st : RMState) (requestId : String) (cbR cbJ : Nat)
    (r r' : ResponseV) (hnd : (st.pending.map Prod.fst).Nodup) :
    (((st.add requestId cbR cbJ).1.resolve requestId r).1 = true) ∧
    (((st.add requestId cbR cbJ).1.resolve requestId r).2.2 =
      [.clearTimer st.nextTimer, .invokeResolve cbR r]) ∧
    (amGet (((st.add requestId cbR cbJ).1.resolve requestId r).2.1).pending requestId
      = none) ∧
    (requestId ∉
      ((((st.add requestId cbR cbJ).1.resolve requestId r).2.1).pending.map Prod.fst)) ∧
    ((((st.add requestId cbR cbJ).1.resolve requestId r).2.1).resolve requestId r' =
      (false, (((st.add requestId cbR cbJ).1.resolve requestId r).2.1), [])) ∧
    ((((st.add requestId cbR cbJ).1.resolve requestId r).2.1).timeoutFire requestId =
      ((((st.add requestId cbR cbJ).1.resolve requestId r).2.1), [])) := by
  have hget :
      amGet (amSet st.pending requestId ⟨cbR, cbJ, st.nextTimer⟩) requestId =
        some ⟨cbR, cbJ, st.nextTimer⟩ :=
    amGet_amSet_self st.pending requestId _
  have hnd' :
      ((amSet st.pending requestId (⟨cbR, cbJ, st.nextTimer⟩ : PendingRequest)).map
        Prod.fst).Nodup :=
    nodup_keys_amSet st.pending requestId _ hnd
  have hdel :
      amGet (amDelete (amSet st.pending requestId
          (⟨cbR, cbJ, st.nextTimer⟩ : PendingRequest)) requestId) requestId = none :=
    amGet_amDelete_self _ requestId hnd'
  have hmem :
      requestId ∉ ((amDelete (amSet st.pending requestId
          (⟨cbR, cbJ, st.nextTimer⟩ : PendingRequest)) requestId).map Prod.fst) :=
    not_mem_keys_amDelete _ requestId hnd'
  refine ⟨?_, ?_, ?_, ?_, ?_, ?_⟩ <;>
    simp [RMState.add, RMState.resolve, RMState.timeoutFire, hget, hdel, hmem]

/-- Witness for C4 at a concrete table. -/
theorem c4_resolve_exactly_once_witness :
    ((((RMState.mk [] 0).add "a" 1 2).1.resolve "a" ⟨"a", true, none, none⟩).1 = true) ∧
    ((((RMState.mk [] 0).add "a" 1 2).1.resolve "a" ⟨"a", true, none, none⟩).2.2 =
      [.clearTimer 0, .invokeResolve 1 ⟨"a", true, none, none⟩]) ∧
    (amGet ((((RMState.mk [] 0).add "a" 1 2).1.resolve "a"
        ⟨"a", true, none, none⟩).2.1).pending "a" = none) ∧
    ("a" ∉ (((((RMState.mk [] 0).add "a" 1 2).1.resolve "a"
        ⟨"a", true, none, none⟩).2.1).pending.map Prod.fst)) ∧
    (((((RMState.mk [] 0).add "a" 1 2).1.resolve "a" ⟨"a", true, none, none⟩).2.1).resolve
        "a" ⟨"a", false, none, none⟩ =
      (false, ((((RMState.mk [] 0).add "a" 1 2).1.resolve "a"
        ⟨"a", true, none, none⟩).2.1), [])) ∧
    (((((RMState.mk [] 0).add "a" 1 2).1.resolve "a"
        ⟨"a", true, none, none⟩).2.1).timeoutFire "a" =
      (((((RMState.mk [] 0).add "a" 1 2).1.resolve "a"
        ⟨"a", true, none, none⟩).2.1), [])) :=
  c4_resolve_exactly_once ⟨[], 0⟩ "a" 1 2 ⟨"a", true, none, none⟩
    ⟨"a", false, none, none⟩ (by decide)

/-! ## C5 — commands posted while disconnected are rejected with 503 -/

/-- **C5.** When the push channel reports disconnected, `handleCommand`
replies immediately with HTTP 503 and `success:false`, leaves the pending
table untouched, and emits no effect (no timer armed, no entry created). -/
theorem c5_disconnected_rejected (sse : SSEState) (rm : RMState) (req : RequestV)
    (cbR cbJ : Nat) (h : sse.isConnected = false) :
    handleCommand sse rm req cbR cbJ =
      (.immediate 503 req.id false "Extension not connected", rm, []) ∧
    (handleCommand sse rm req cbR cbJ).2.1.pendingCount = rm.pendingCount := by
  constructor <;> simp [handleCommand, h]

/-- Witness for C5: no connection has ever been established. -/
theorem c5_disconnected_rejected_witness :
    handleCommand ⟨none⟩ ⟨[("b", ⟨1, 2, 3⟩)], 4⟩ ⟨"r1", "click", none⟩ 8 9 =
      (.immediate 503 "r1" false "Extension not connected",
        ⟨[("b", ⟨1, 2, 3⟩)], 4⟩, []) ∧
    (handleCommand ⟨none⟩ ⟨[("b", ⟨1, 2, 3⟩)], 4⟩ ⟨"r1", "click", none⟩ 8 9).2.1.pendingCount
      = RMState.pendingCount ⟨[("b", ⟨1, 2, 3⟩)], 4⟩ :=
  c5_disconnected_rejected ⟨none⟩ ⟨[("b", ⟨1, 2, 3⟩)], 4⟩ ⟨"r1", "click", none⟩ 8 9
    (by decide)

/-! ## C6 — the result endpoint's `{code, message}` envelope -/

/-- **C6.** Every posted result gets HTTP 200; the envelope code is `0`
exactly when the identifier matched a pending entry (whose resolver is then
invoked and whose timeout is cancelled), and `1` otherwise, in which case the
handler is a pure no-op (state unchanged, no effects) rather than an
error. -/
theorem c6_result_envelope (rm : RMState) (result : ResponseV) :
    (handleResult rm result).1.status = 200 ∧
    ((handleResult rm result).1.code = 0 ↔ (amGet rm.pending result.id).isSome) ∧
    ((handleResult rm result).1.code = 0 ∨ (handleResult rm result).1.code = 1) ∧
    ((amGet rm.pending result.id).isSome = false →
      handleResult rm result =
        (⟨200, 1, "Request not found or already expired"⟩, rm, [])) ∧
    (∀ p, amGet rm.pending result.id = some p →
      (handleResult rm result).1 = ⟨200, 0, "ok"⟩ ∧
      (handleResult rm result).2.2 =
        [.clearTimer p.timeout, .invokeResolve p.resolveCb result]) := by
  cases h : amGet rm.pending result.id with
  | none =>
      refine ⟨?_, ?_, ?_, ?_, ?_⟩ <;>
        simp [handleResult, RMState.resolve, h]
  | some p =>
      refine ⟨?_, ?_, ?_, ?_, ?_⟩ <;>
        simp [handleResult, RMState.resolve, h]

/-! ## Split/join algebra and the `compactTree` claims C3 / C9 -/

theorem splitNl_ne_nil (cs : List Char) : splitNl cs ≠ [] := by
  induction cs with
  | nil => simp [splitNl]
  | cons c cs ih =>
      by_cases h : c = '\n'
      · simp [splitNl, h]
      · simp only [splitNl, if_neg h]
        cases hs : splitNl cs with
        | nil => simp
        | cons l ls => simp

theorem not_newline_mem_splitNl (cs : List Char) :
    ∀ l ∈ splitNl cs, '\n' ∉ l := by
  induction cs with
  | nil => simp [splitNl]
  | cons c cs ih =>
      intro l hl
      by_cases h : c = '\n'
      · rw [splitNl, if_pos h] at hl
        rcases List.mem_cons.mp hl with rfl | hl
        · simp
        · exact ih l hl
      · rw [splitNl, if_neg h] at hl
        rcases hsp : splitNl cs with _ | ⟨l₀, ls⟩
        · exact absurd hsp (splitNl_ne_nil cs)
        · simp only [hsp] at hl
          rcases List.mem_cons.mp hl with rfl | hl
          · intro hmem
            rcases List.mem_cons.mp hmem with hc | hmem
            · exact h hc.symm
            · exact ih l₀ (by rw [hsp]; exact List.mem_cons_self _ _) hmem
          · exact ih l (by rw [hsp]; exact List.mem_cons_of_mem _ hl)

theorem splitNl_of_no_newline (l : List Char) (h : '\n' ∉ l) : splitNl l = [l] := by
  induction l with
  | nil => rfl
  | cons c cs ih =>
      simp only [List.mem_cons] at h
      push_neg at h
      rw [splitNl, if_neg (fun hc => h.1 hc.symm), ih h.2]

theorem splitNl_append_newline (a b : List Char) (h : '\n' ∉ a) :
    splitNl (a ++ '\n' :: b) = a :: splitNl b := by
  induction a with
  | nil => simp [splitNl]
  | cons c cs ih =>
      simp only [List.mem_cons] at h
      push_neg at h
      rw [List.cons_append, splitNl, if_neg (fun hc => h.1 hc.symm), ih h.2]

theorem splitNl_joinNl (ls : List (List Char)) (h1 : ls ≠ [])
    (h2 : ∀ l ∈ ls, '\n' ∉ l) : splitNl (joinNl ls) = ls := by
  induction ls with
  | nil => exact absurd rfl h1
  | cons l ls ih =>
      cases ls with
      | nil => exact splitNl_of_no_newline l (h2 l (List.mem_cons_self _ _))
      | cons l' ls' =>
          have hih := ih (List.cons_ne_nil l' ls')
            (fun x hx => h2 x (List.mem_cons_of_mem _ hx))
          rw [joinNl, splitNl_append_newline _ _ (h2 l (List.mem_cons_self _ _)), hih]
          exact fun hh => List.noConfusion hh

theorem jsSplit_jsJoin (ls : List String) (h1 : ls ≠ [])
    (h2 : ∀ l ∈ ls, '\n' ∉ l.data) : jsSplit (jsJoin ls) = ls := by
  have hmap : ls.map String.data ≠ [] := by simpa using h1
  have hnn : ∀ l ∈ ls.map String.data, '\n' ∉ l := by
    intro l hl
    rcases List.mem_map.mp hl with ⟨s, hs, rfl⟩
    exact h2 s hs
  show (splitNl (joinNl (ls.map String.data))).map (fun l => (⟨l⟩ : String)) = ls
  rw [splitNl_joinNl _ hmap hnn, List.map_map]
  have hid : ((fun l => (⟨l⟩ : String)) ∘ String.data) = id := funext fun s => rfl
  rw [hid, List.map_id]

theorem no_newline_mem_jsSplit (s : String) :
    ∀ l ∈ jsSplit s, '\n' ∉ l.data := by
  intro l hl
  rcases List.mem_map.mp hl with ⟨cl, hcl, rfl⟩
  exact not_newline_mem_splitNl s.data cl hcl

theorem compactLines_sublist (ls : List String) :
    List.Sublist (compactLines ls) ls := by
  induction ls with
  | nil => simp [compactLines]
  | cons l ls ih =>
      cases h : keepLine l ls with
      | true =>
          rw [compactLines, if_pos h]
          exact ih.cons₂ l
      | false =>
          rw [compactLines, if_neg (by simp [h])]
          exact ih.cons l

theorem keep_of_relevant (l : String) (rest' : List String)
    (h : (jsIncludes l "[ref=" || jsIncludes l "\"" || jsIncludes l "- text:") = true) :
    keepLine l rest' = true := by
  simp only [Bool.or_eq_true] at h
  rcases h with (h | h) | h
  · simp [keepLine, h]
  · rcases Bool.dichotomy (jsIncludes l "[ref=") with h1 | h1
    · rcases Bool.dichotomy (jsIncludes l "- text:") with h2 | h2 <;>
        rcases Bool.dichotomy (jsIncludes l "- /url:") with h3 | h3 <;>
        simp [keepLine, h1, h2, h3, h]
    · simp [keepLine, h1]
  · rcases Bool.dichotomy (jsIncludes l "[ref=") with h1 | h1 <;> simp [keepLine, h1, h]

theorem hasRelevantChild_compactLines (cur : Nat) (ls : List String)
    (h : hasRelevantChild cur ls = true) :
    hasRelevantChild cur (compactLines ls) = true := by
  induction ls with
  | nil => simp [hasRelevantChild] at h
  | cons l ls ih =>
      by_cases hi : getIndentLevel l ≤ cur
      · rw [hasRelevantChild, if_pos hi] at h
        exact absurd h (by simp)
      · rw [hasRelevantChild, if_neg hi] at h
        rcases Bool.dichotomy
            (jsIncludes l "[ref=" || jsIncludes l "\"" || jsIncludes l "- text:") with
          hrel | hrel
        · rw [if_neg (by simp [hrel])] at h
          rcases Bool.dichotomy (keepLine l ls) with hk | hk
          · rw [compactLines, if_neg (by simp [hk])]
            exact ih h
          · rw [compactLines, if_pos hk, hasRelevantChild, if_neg hi,
              if_neg (by simp [hrel])]
            exact ih h
        · have hkeep : keepLine l ls = true := keep_of_relevant l ls hrel
          rw [compactLines, if_pos hkeep, hasRelevantChild, if_neg hi,
            if_pos (by simp [hrel] : (jsIncludes l "[ref=" || jsIncludes l "\"" ||
              jsIncludes l "- text:") = true)]

theorem keepLine_compactLines (l : String) (ls : List String)
    (h : keepLine l ls = true) : keepLine l (compactLines ls) = true := by
  rcases Bool.dichotomy (jsIncludes l "[ref=") with h1 | h1
  case inr => simp [keepLine, h1]
  rcases Bool.dichotomy (jsIncludes l "- text:" || jsIncludes l "- /url:") with h2 | h2
  case inr => simp [keepLine, h1, h2]
  rcases Bool.dichotomy (jsIncludes l "\"") with h3 | h3
  case inr => simp [keepLine, h1, h2, h3]
  have h' : hasRelevantChild (getIndentLevel l) ls = true := by
    simpa [keepLine, h1, h2, h3] using h
  simpa [keepLine, h1, h2, h3] using hasRelevantChild_compactLines _ _ h'

theorem compactLines_idem (ls : List String) :
    compactLines (compactLines ls) = compactLines ls := by
  induction ls with
  | nil => rfl
  | cons l ls ih =>
      by_cases hk : keepLine l ls = true
      · rw [compactLines, if_pos hk, compactLines,
          if_pos (keepLine_compactLines l ls hk), ih]
      · rw [compactLines, if_neg hk, ih]

theorem depthOk_compact (opts : FormatOptions) (c : Bool) (d : Nat) :
    depthOk {opts with compact := c} d = depthOk opts d := rfl

theorem shouldAssignRef_compact (opts : FormatOptions) (c : Bool) (role : String) :
    shouldAssignRef {opts with compact := c} role = shouldAssignRef opts role := rfl

theorem assignStep_compact (opts : FormatOptions) (c : Bool) (node : AXNode)
    (depth : Nat) (role name : String) (st : FmtState) :
    assignStep {opts with compact := c} node depth role name st =
      assignStep opts node depth role name st := rfl

theorem traverseBody_compact (nm : List (String × AXNode)) (um : List (Nat × String))
    (opts : FormatOptions) (c : Bool) (rec2 : String → Nat → FmtState → FmtState)
    (node : AXNode) (depth : Nat) (st : FmtState) :
    traverseBody ⟨nm, um, {opts with compact := c}⟩ rec2 node depth st =
      traverseBody ⟨nm, um, opts⟩ rec2 node depth st := by
  simp only [traverseBody, depthOk_compact, shouldAssignRef_compact, assignStep_compact]

/-- The traversal never reads the `compact` flag: it is applied only as a
post-processing step. -/
theorem traverse_compact (nm : List (String × AXNode)) (um : List (Nat × String))
    (opts : FormatOptions) (c : Bool) :
    ∀ fuel nodeId depth st,
      traverse ⟨nm, um, {opts with compact := c}⟩ fuel nodeId depth st =
        traverse ⟨nm, um, opts⟩ fuel nodeId depth st := by
  intro fuel
  induction fuel with
  | zero => intro _ _ _; rfl
  | succ fuel ih =>
      intro nodeId depth st
      simp only [traverse]
      cases amGet nm nodeId with
      | none => rfl
      | some node =>
          simp only [ih]
          exact traverseBody_compact nm um opts c _ node depth st

/-- **C9.** The compact-mode post-processing pass is idempotent: a second
application of `compactTree` returns its input unchanged, for every input
string. -/
theorem c9_compactTree_idempotent (s : String) :
    compactTree (compactTree s) = compactTree s := by
  unfold compactTree
  by_cases hk : compactLines (jsSplit s) = []
  · rw [hk]
    decide
  · rw [jsSplit_jsJoin _ hk
      (fun l hl => no_newline_mem_jsSplit s l ((compactLines_sublist _).subset hl)),
      compactLines_idem]

/-- **C3 (counterexample).** A single bare structural node: full mode renders
`"- navigation"`, compact mode drops every line and falls back to the
placeholder `"(empty)"` — a line that does not occur in the full output, so
the compact text's lines are not a subsequence of the full text's lines. -/
theorem c3_compact_counterexample :
    (formatAXTree exNav [] ⟨false, false, none⟩).snapshot = "- navigation" ∧
    (formatAXTree exNav [] ⟨false, true, none⟩).snapshot = "(empty)" ∧
    ¬ List.Sublist (jsSplit (formatAXTree exNav [] ⟨false, true, none⟩).snapshot)
        (jsSplit (formatAXTree exNav [] ⟨false, false, none⟩).snapshot) := by
  refine ⟨by decide, by decide, ?_⟩
  intro h
  have hm := h.subset (a := "(empty)") (by decide)
  revert hm
  decide

/-- **C3 (amended).** Compact mode only drops lines: unless the compact pass
drops *every* line — in which case the compact snapshot is the fixed
placeholder `"(empty)"` — the compact snapshot's lines are a subsequence of
the full-mode snapshot's lines, for the same inputs and options. -/
theorem c3_compact_sublist_amended (nodes : List AXNode) (urlMap : List (Nat × String))
    (opts : FormatOptions) :
    (formatAXTree nodes urlMap {opts with compact := true}).snapshot = "(empty)" ∨
    List.Sublist
      (jsSplit (formatAXTree nodes urlMap {opts with compact := true}).snapshot)
      (jsSplit (formatAXTree nodes urlMap {opts with compact := false}).snapshot) := by
  cases nodes with
  | nil => left; rfl
  | cons root rest =>
      simp only [formatAXTree, formatAXTreeX, traverse_compact]
      set st := traverse
        ⟨(root :: rest).foldl (fun m n => amSet m n.nodeId n) [], urlMap, opts⟩
        ((root :: rest).length + 1) root.nodeId 0 initFmtState with hst
      set dk := getDuplicateKeys st.refsByKey with hdk
      set cleaned := st.lines.map (cleanLine (removeNthFromNonDuplicates st.refs dk) dk)
        with hcleaned
      set s0 := jsJoin cleaned with hs0def
      by_cases hc : compactTree s0 = ""
      · left
        have e1 : (if True then compactTree s0 else s0) = compactTree s0 :=
          if_pos trivial
        rw [e1, if_pos hc]
      · right
        have hkept : compactLines (jsSplit s0) ≠ [] := by
          intro hk
          apply hc
          rw [compactTree, hk]
          decide
        have hs0 : s0 ≠ "" := by
          intro h0
          apply hkept
          rw [h0]
          decide
        have hsub := compactLines_sublist (jsSplit s0)
        have e1 : (if True then compactTree s0 else s0) = compactTree s0 :=
          if_pos trivial
        have e2 : (if false = true then compactTree s0 else s0) = s0 :=
          if_neg (by simp)
        rw [e1, e2, if_neg hc, if_neg hs0]
        rw [compactTree, jsSplit_jsJoin _ hkept
          (fun l hl => no_newline_mem_jsSplit s0 l (hsub.subset hl))]
        exact hsub

/-! ## C7 / C8 — option matching of the `select` action -/

theorem findMatchExact_eq_find (os : List OptionEl) (q : String) :
    findMatchExact os q =
      os.find? fun o => o.value == q || jsTrim o.textContent == q := by
  induction os with
  | nil => rfl
  | cons o os ih =>
      by_cases h : o.value = q ∨ jsTrim o.textContent = q
      · rcases h with h | h <;>
          simp [findMatchExact, List.find?, h]
      · push_neg at h
        have e1 : (o.value == q) = false := beq_eq_false_iff_ne.mpr h.1
        have e2 : (jsTrim o.textContent == q) = false := beq_eq_false_iff_ne.mpr h.2
        simp [findMatchExact, List.find?, e1, e2, h.1, h.2, ih]

theorem findMatchLower_eq_find (os : List OptionEl) (lower : String) :
    findMatchLower os lower =
      os.find? fun o =>
        jsToLower o.value == lower || jsToLower (jsTrim o.textContent) == lower := by
  induction os with
  | nil => rfl
  | cons o os ih =>
      by_cases h : jsToLower o.value = lower ∨ jsToLower (jsTrim o.textContent) = lower
      · rcases h with h | h <;>
          simp [findMatchLower, List.find?, h]
      · push_neg at h
        have e1 : (jsToLower o.value == lower) = false := beq_eq_false_iff_ne.mpr h.1
        have e2 : (jsToLower (jsTrim o.textContent) == lower) = false :=
          beq_eq_false_iff_ne.mpr h.2
        simp [findMatchLower, List.find?, e1, e2, h.1, h.2, ih]

/-- **C7 (counterexample).** The two matching passes test exact value and
exact label *together*, first option wins: with options
`[{value:"x", label:"Q"}, {value:"Q", label:"y"}]` and query `"Q"`, the first
option matches by exact label and is selected even though the second option
matches by exact value — the claimed value-before-label priority does not
hold. -/
theorem c7_order_counterexample :
    selectOption [⟨"x", "Q"⟩, ⟨"Q", "y"⟩] "Q" = .ok "x" "Q" ∧
    (⟨"Q", "y"⟩ : OptionEl).value = "Q" ∧
    (⟨"x", "Q"⟩ : OptionEl).value ≠ "Q" := by
  decide

/-- **C7 (amended).** The option is matched by a first pass taking the first
option whose exact value *or* exact trimmed label equals the query, then by a
second pass doing the same comparison case-insensitively; when no option
matches either pass, the action fails with an error carrying the full
available `(value, label)` list. -/
theorem c7_match_order_amended (options : List OptionEl) (q : String) :
    ((∀ o ∈ options, o.value ≠ q ∧ jsTrim o.textContent ≠ q ∧
        jsToLower o.value ≠ jsToLower q ∧
        jsToLower (jsTrim o.textContent) ≠ jsToLower q) →
      selectOption options q =
        .notFound q (options.map fun o => (o.value, jsTrim o.textContent))) ∧
    (∀ o, (options.find? fun o' => o'.value == q || jsTrim o'.textContent == q) = some o →
      selectOption options q = .ok o.value (jsTrim o.textContent)) ∧
    ((options.find? fun o' => o'.value == q || jsTrim o'.textContent == q) = none →
      ∀ o, (options.find? fun o' =>
          jsToLower o'.value == jsToLower q ||
            jsToLower (jsTrim o'.textContent) == jsToLower q) = some o →
      selectOption options q = .ok o.value (jsTrim o.textContent)) := by
  refine ⟨?_, ?_, ?_⟩
  · intro h
    have h₁ : findMatchExact options q = none := by
      rw [findMatchExact_eq_find, List.find?_eq_none]
      intro o ho
      simp [(h o ho).1, (h o ho).2.1]
    have h₂ : findMatchLower options (jsToLower q) = none := by
      rw [findMatchLower_eq_find, List.find?_eq_none]
      intro o ho
      simp [(h o ho).2.2.1, (h o ho).2.2.2]
    simp [selectOption, h₁, h₂]
  · intro o ho
    have h₁ : findMatchExact options q = some o := by
      rw [findMatchExact_eq_find]; exact ho
    simp [selectOption, h₁]
  · intro hnone o ho
    have h₁ : findMatchExact options q = none := by
      rw [findMatchExact_eq_find]; exact hnone
    have h₂ : findMatchLower options (jsToLower q) = some o := by
      rw [findMatchLower_eq_find]; exact ho
    simp [selectOption, h₁, h₂]

/-- Witness for the amended C7: exact-pass hit, case-insensitive hit, and
no-match error at concrete inputs. -/
theorem c7_match_order_amended_witness :
    selectOption [⟨"a", "A"⟩, ⟨"b", "B"⟩] "B" = .ok "b" "B" ∧
    selectOption [⟨"a", "A"⟩, ⟨"b", "B"⟩] "b" = .ok "b" "B" ∧
    selectOption [⟨"a", "A"⟩] "zz" = .notFound "zz" [("a", "A")] :=
  ⟨(c7_match_order_amended [⟨"a", "A"⟩, ⟨"b", "B"⟩] "B").2.1 ⟨"b", "B"⟩ (by decide),
   (c7_match_order_amended [⟨"a", "A"⟩, ⟨"b", "B"⟩] "b").2.1 ⟨"b", "B"⟩ (by decide),
   (c7_match_order_amended [⟨"a", "A"⟩] "zz").1 (by decide)⟩

/-- **C8 (counterexample).** The query string is never trimmed: `"  Blue  "`
against the single option `{value:"blue", label:"Blue"}` matches nothing
(only option labels are trimmed) and the action fails with the available
list, instead of returning `selectedValue:"blue"`. -/
theorem c8_whitespace_counterexample :
    selectOption [⟨"blue", "Blue"⟩] "  Blue  " =
      .notFound "  Blue  " [("blue", "Blue")] := by
  decide

/-- **C8 (amended).** With option list `[{value:"blue", label:"Blue"}]`, the
padded query `"  Blue  "` fails with the full available list (the query is
not trimmed); the un-padded queries `"Blue"` (exact label) and `"BLUE"`
(case-insensitive) do match and return `selectedValue:"blue"`. -/
theorem c8_whitespace_amended :
    selectOption [⟨"blue", "Blue"⟩] "  Blue  " =
      .notFound "  Blue  " [("blue", "Blue")] ∧
    selectOption [⟨"blue", "Blue"⟩] "Blue" = .ok "blue" "Blue" ∧
    selectOption [⟨"blue", "Blue"⟩] "BLUE" = .ok "blue" "Blue" := by
  refine ⟨?_, ?_, ?_⟩ <;> decide

/-- Witness for C6: one matched posting, one unmatched posting. -/
theorem c6_result_envelope_witness :
    ((handleResult ⟨[("x", ⟨3, 4, 9⟩)], 10⟩ ⟨"x", true, none, none⟩).1 =
      ⟨200, 0, "ok"⟩) ∧
    (handleResult ⟨[("x", ⟨3, 4, 9⟩)], 10⟩ ⟨"y", true, none, none⟩ =
      (⟨200, 1, "Request not found or already expired"⟩, ⟨[("x", ⟨3, 4, 9⟩)], 10⟩, [])) :=
  ⟨((c6_result_envelope ⟨[("x", ⟨3, 4, 9⟩)], 10⟩ ⟨"x", true, none, none⟩).2.2.2.2
      ⟨3, 4, 9⟩ (by decide)).1,
   (c6_result_envelope ⟨[("x", ⟨3, 4, 9⟩)], 10⟩ ⟨"y", true, none, none⟩).2.2.2.1
      (by decide)⟩

/-! ## Substring and digit-string toolbox for the formatter claims -/

theorem hasSubL_true_iff (p l : List Char) :
    hasSubL p l = true ↔ p <:+: l := by
  induction l with
  | nil =>
      rw [hasSubL]
      simp [List.isEmpty_iff]
  | cons c cs ih =>
      rw [hasSubL, Bool.or_eq_true, List.isPrefixOf_iff_prefix, ih,
        List.infix_cons_iff]

theorem hasSubL_false_iff (p l : List Char) :
    hasSubL p l = false ↔ ¬ p <:+: l := by
  rw [← hasSubL_true_iff]
  cases hasSubL p l <;> simp

theorem hasSubL_of_head_not_mem (p l : List Char) (c : Char)
    (hc : p.head? = some c) (hl : c ∉ l) : hasSubL p l = false := by
  rw [hasSubL_false_iff]
  intro hinf
  exact hl (hinf.subset (List.mem_of_mem_head? (by rw [hc]; exact rfl)))

theorem hasSubL_of_length_lt (p l : List Char) (h : l.length < p.length) :
    hasSubL p l = false := by
  rw [hasSubL_false_iff]
  intro hinf
  exact absurd hinf.length_le (by omega)

theorem hasSubL_mono_pattern (p' p l : List Char) (hp : p' <+: p)
    (h : hasSubL p l = true) : hasSubL p' l = true := by
  rw [hasSubL_true_iff] at h ⊢
  exact hp.isInfix.trans h

theorem hasSubL_append_left_false (p a b : List Char)
    (h : hasSubL p (a ++ b) = false) : hasSubL p a = false := by
  rw [hasSubL_false_iff] at h ⊢
  intro ha
  exact h (ha.trans (List.prefix_append a b).isInfix)

theorem infix_append_cases (p a b : List Char) (h : p <:+: a ++ b) :
    p <:+: a ∨ p <:+: b ∨
      ∃ s t, s ++ t = p ∧ s ≠ [] ∧ t ≠ [] ∧ s <:+ a ∧ t <+: b := by
  induction a with
  | nil =>
      right; left
      simpa using h
  | cons c a' ih =>
      rw [List.cons_append, List.infix_cons_iff] at h
      rcases h with h | h
      · obtain ⟨r, hr⟩ := h
        have happ : p <+: (c :: a') ++ b := ⟨r, by rw [hr]; rfl⟩
        by_cases hlen : p.length ≤ (c :: a').length
        · left
          have hp : p = ((c :: a') ++ b).take p.length := List.prefix_iff_eq_take.mp happ
          rw [List.take_append_of_le_length hlen] at hp
          exact (List.prefix_iff_eq_take.mpr hp).isInfix
        · right; right
          push_neg at hlen
          have h1 : p.take (c :: a').length = c :: a' := by
            have h2 := congrArg (List.take (c :: a').length) hr
            rw [List.take_append_of_le_length (by omega)] at h2
            rw [h2, show c :: (a' ++ b) = (c :: a') ++ b from rfl, List.take_left]
          refine ⟨c :: a', p.drop (c :: a').length, ?_, by simp, ?_, List.suffix_rfl, ?_⟩
          · nth_rewrite 1 [← h1]
            exact List.take_append_drop _ _
          · rw [ne_eq, List.drop_eq_nil_iff]
            omega
          · have h3 : (c :: a') ++ (p.drop (c :: a').length ++ r) = (c :: a') ++ b := by
              nth_rewrite 1 [← h1]
              rw [← List.append_assoc, List.take_append_drop, hr]
              rfl
            exact ⟨r, List.append_cancel_left h3⟩
      · rcases ih h with h' | h' | ⟨s, t, hst, hs, ht, hsuf, hpre⟩
        · exact Or.inl (h'.trans (List.infix_cons (List.infix_refl a')))
        · exact Or.inr (Or.inl h')
        · exact Or.inr (Or.inr ⟨s, t, hst, hs, ht,
            hsuf.trans (List.suffix_cons c a'), hpre⟩)

theorem span_shape (p s t : List Char) (hst : s ++ t = p) (hs : s ≠ [])
    (ht : t ≠ []) :
    ∃ k, 0 < k ∧ k < p.length ∧ s = p.take k ∧ t = p.drop k := by
  refine ⟨s.length, by simpa using List.length_pos.mpr hs, ?_, ?_, ?_⟩
  · have := congrArg List.length hst
    simp only [List.length_append] at this
    have := List.length_pos.mpr ht
    omega
  · rw [← hst, List.take_left]
  · rw [← hst, List.drop_left]

theorem span_kill_head (p b s t : List Char) (c : Char) (hst : s ++ t = p)
    (hs : s ≠ []) (ht : t ≠ []) (hpre : t <+: b) (hb : b.head? = some c)
    (hc : c ∉ p.drop 1) : False := by
  obtain ⟨k, hk0, _, _, htk⟩ := span_shape p s t hst hs ht
  have hth : t.head? = some c := by
    cases t with
    | nil => exact absurd rfl ht
    | cons x ts =>
        obtain ⟨r, hr⟩ := hpre
        rw [← hr] at hb
        simpa using hb
  have hct : c ∈ t := List.mem_of_mem_head? (by rw [hth]; exact rfl)
  have hsub : t ⊆ p.drop 1 := by
    rw [htk]
    intro y hy
    have hdp : p.drop k ⊆ p.drop 1 := by
      rw [show k = 1 + (k - 1) from (by omega), ← List.drop_drop]
      exact List.drop_subset _ _
    exact hdp hy
  exact hc (hsub hct)

theorem span_kill_last (p a s t : List Char) (c : Char) (hst : s ++ t = p)
    (hs : s ≠ []) (ht : t ≠ []) (hsuf : s <:+ a) (ha : a.getLast? = some c)
    (hc : c ∉ p.dropLast) : False := by
  have hsl : s.getLast? = some c := by
    obtain ⟨r, hr⟩ := hsuf
    rw [← hr, List.getLast?_append_of_ne_nil r hs] at ha
    exact ha
  have hcs : c ∈ s := by
    have := List.mem_getLast?_eq_getLast (show c ∈ s.getLast? from by rw [hsl]; exact rfl)
    obtain ⟨hne, hcc⟩ := this
    rw [hcc]
    exact List.getLast_mem hne
  have hsub : s ⊆ p.dropLast := by
    rw [← hst, List.dropLast_append_of_ne_nil _ ht]
    exact fun y hy => List.mem_append_left _ hy
  exact hc (hsub hcs)

/-- No occurrence of `p` in `a ++ b` given none in either part and no
possible span. -/
theorem noSub_append (p a b : List Char)
    (ha : hasSubL p a = false) (hb : hasSubL p b = false)
    (hspan : ∀ s t, s ++ t = p → s ≠ [] → t ≠ [] → s <:+ a → t <+: b → False) :
    hasSubL p (a ++ b) = false := by
  rw [hasSubL_false_iff]
  intro h
  rcases infix_append_cases p a b h with h' | h' | ⟨s, t, hst, hs, ht, hsuf, hpre⟩
  · exact (hasSubL_false_iff p a).mp ha h'
  · exact (hasSubL_false_iff p b).mp hb h'
  · exact hspan s t hst hs ht hsuf hpre

theorem natToDigitsAux_ne_nil (fuel n : Nat) : natToDigitsAux (fuel + 1) n ≠ [] := by
  rw [natToDigitsAux]
  by_cases h : n < 10
  · simp [h]
  · simp [h]

theorem natToStr_data (n : Nat) : (natToStr n).data = natToDigitsAux (n + 1) n := rfl

theorem natToStr_data_ne_nil (n : Nat) : (natToStr n).data ≠ [] :=
  natToDigitsAux_ne_nil n n

theorem natToDigitsAux_digits (fuel : Nat) :
    ∀ n, ∀ c ∈ natToDigitsAux fuel n, c.isDigit = true := by
  induction fuel with
  | zero => simp [natToDigitsAux]
  | succ f ih =>
      intro n c hc
      rw [natToDigitsAux] at hc
      by_cases h : n < 10
      · rw [if_pos h] at hc
        rcases List.mem_singleton.mp hc with rfl
        interval_cases n <;> decide
      · rw [if_neg h] at hc
        rcases List.mem_append.mp hc with hc | hc
        · exact ih _ c hc
        · rcases List.mem_singleton.mp hc with rfl
          have hm : n % 10 < 10 := Nat.mod_lt _ (by omega)
          generalize n % 10 = m at hm
          interval_cases m <;> decide

theorem natToDigitsAux_head_ne_zero (fuel : Nat) :
    ∀ n, 1 ≤ n → n ≤ fuel → (natToDigitsAux fuel n).head? ≠ some '0' := by
  induction fuel with
  | zero => omega
  | succ f ih =>
      intro n h1 h2
      rw [natToDigitsAux]
      by_cases h : n < 10
      · rw [if_pos h]
        intro hc
        rw [List.head?_cons, Option.some.injEq] at hc
        interval_cases n <;> exact absurd hc (by decide)
      · rw [if_neg h]
        have hdiv : n / 10 < n := Nat.div_lt_self (by omega) (by omega)
        have hne : natToDigitsAux f (n / 10) ≠ [] := by
          cases f with
          | zero => omega
          | succ f' => exact natToDigitsAux_ne_nil f' _
        obtain ⟨x, xs, hxx⟩ := List.exists_cons_of_ne_nil hne
        have hxh := ih (n / 10) (by omega) (by omega)
        rw [hxx] at hxh ⊢
        simpa using hxh

theorem strVal_append_singleton (l : List Char) (c : Char) :
    strVal (l ++ [c]) = strVal l * 10 + (c.toNat - 48) := by
  simp [strVal, List.foldl_append]

theorem strVal_natToDigitsAux (fuel : Nat) :
    ∀ n, n < fuel → strVal (natToDigitsAux fuel n) = n := by
  induction fuel with
  | zero => omega
  | succ f ih =>
      intro n hnf
      rw [natToDigitsAux]
      by_cases hn : n < 10
      · rw [if_pos hn]
        interval_cases n <;> decide
      · rw [if_neg hn, strVal_append_singleton]
        have hd : n / 10 < f := by
          have := Nat.div_lt_self (show 0 < n by omega) (show 1 < 10 by omega)
          omega
        rw [ih _ hd]
        have hm : n % 10 < 10 := Nat.mod_lt _ (by omega)
        have hv : (Nat.digitChar (n % 10)).toNat - 48 = n % 10 := by
          generalize n % 10 = m at hm
          interval_cases m <;> decide
        rw [hv]
        omega

theorem natToStr_inj (m n : Nat) (h : natToStr m = natToStr n) : m = n := by
  have hd : (natToStr m).data = (natToStr n).data := by rw [h]
  rw [natToStr_data, natToStr_data] at hd
  have hm := strVal_natToDigitsAux (m + 1) m (by omega)
  have hn := strVal_natToDigitsAux (n + 1) n (by omega)
  rw [← hm, ← hn, hd]

theorem natToStr_head_ne_zero (n : Nat) (h : 1 ≤ n) :
    (natToStr n).data.head? ≠ some '0' := by
  rw [natToStr_data]
  exact natToDigitsAux_head_ne_zero (n + 1) n h (by omega)

theorem natToStr_all_digits (n : Nat) :
    ∀ c ∈ (natToStr n).data, c.isDigit = true := by
  rw [natToStr_data]
  exact natToDigitsAux_digits (n + 1) n

theorem takeWhile_append_all (P : Char → Bool) (l r : List Char)
    (h : ∀ c ∈ l, P c = true) :
    (l ++ r).takeWhile P = l ++ r.takeWhile P := by
  induction l with
  | nil => simp
  | cons c cs ih =>
      rw [List.cons_append, List.takeWhile_cons, if_pos (h c (List.mem_cons_self c cs)),
        ih fun x hx => h x (List.mem_cons_of_mem _ hx)]
      rfl

/-! ### Behaviour of the three cleanup scanners -/

theorem hasSubL_cons_false (p : List Char) (c : Char) (cs : List Char)
    (h : hasSubL p (c :: cs) = false) :
    p.isPrefixOf (c :: cs) = false ∧ hasSubL p cs = false := by
  rw [hasSubL, Bool.or_eq_false_iff] at h
  exact h

theorem hasSubL_append_right_false (p a b : List Char)
    (h : hasSubL p (a ++ b) = false) : hasSubL p b = false := by
  rw [hasSubL_false_iff] at h ⊢
  intro hb
  exact h (hb.trans (List.suffix_append a b).isInfix)

theorem hasSubL_of_suffix_false (p l l' : List Char) (hsuf : l' <:+ l)
    (h : hasSubL p l = false) : hasSubL p l' = false := by
  obtain ⟨a, ha⟩ := hsuf
  rw [← ha] at h
  exact hasSubL_append_right_false p a l' h

theorem prefix_append_split (p a b : List Char) (h : p <+: a ++ b) :
    p <+: a ∨ (a <+: p ∧ p.drop a.length <+: b) := by
  by_cases hlen : p.length ≤ a.length
  · left
    have hp := List.prefix_iff_eq_take.mp h
    rw [List.take_append_of_le_length hlen] at hp
    exact List.prefix_iff_eq_take.mpr hp
  · right
    push_neg at hlen
    obtain ⟨r, hr⟩ := h
    have h2 := congrArg (List.take a.length) hr
    rw [List.take_append_of_le_length (le_of_lt hlen), List.take_left] at h2
    constructor
    · refine ⟨p.drop a.length, ?_⟩
      nth_rewrite 1 [← h2]
      exact List.take_append_drop _ _
    · refine ⟨r, ?_⟩
      have h3 := congrArg (List.drop a.length) hr
      rw [List.drop_append_of_le_length (le_of_lt hlen), List.drop_left] at h3
      exact h3

theorem tryNthAt_isSome_pre (l : List Char) (h : (tryNthAt l).isSome = true) :
    "[nth=".data <+: l := by
  rw [tryNthAt] at h
  by_cases hp : "[nth=".data.isPrefixOf l
  · exact List.isPrefixOf_iff_prefix.mp hp
  · rw [if_neg hp] at h
    simp at h

theorem tryRefAt_isSome_pre (l : List Char)
    (h : (tryRefAt l).isSome = true) : "[ref=".data <+: l := by
  rw [tryRefAt] at h
  by_cases hp : "[ref=".data.isPrefixOf l
  · exact List.isPrefixOf_iff_prefix.mp hp
  · rw [if_neg hp] at h
    simp at h

theorem tryRefAt_rest_suffix (l : List Char) (dr : List Char × List Char)
    (h : tryRefAt l = some dr) : dr.2 <:+ l := by
  rw [tryRefAt] at h
  by_cases hp : "[nth=".data.isPrefixOf l
  all_goals by_cases hp' : "[ref=".data.isPrefixOf l
  all_goals first
    | (rw [if_neg hp'] at h; exact absurd h (by simp))
    | (rw [if_pos hp'] at h
       by_cases hds : ((l.drop 5).takeWhile Char.isDigit).isEmpty
       · rw [if_pos hds] at h
         exact absurd h (by simp)
       · rw [if_neg hds] at h
         by_cases hhd : ((l.drop 5).drop
             ((l.drop 5).takeWhile Char.isDigit).length).head? = some ']'
         · rw [if_pos hhd] at h
           have hdr : dr.2 = ((l.drop 5).drop
               ((l.drop 5).takeWhile Char.isDigit).length).tail := by
             injection h with h2
             rw [← h2]
           rw [hdr]
           exact (List.tail_suffix _).trans
             ((List.drop_suffix _ _).trans (List.drop_suffix _ _))
         · rw [if_neg hhd] at h
           exact absurd h (by simp))

theorem hasNthMarkerL_imp_sub (l : List Char) (h : hasNthMarkerL l = true) :
    hasSubL "[nth=".data l = true := by
  induction l with
  | nil => simp [hasNthMarkerL] at h
  | cons c cs ih =>
      rw [hasNthMarkerL, Bool.or_eq_true] at h
      rcases h with h | h
      · rw [hasSubL_true_iff]
        exact (tryNthAt_isSome_pre _ h).isInfix
      · rw [hasSubL, Bool.or_eq_true]
        exact Or.inr (ih h)

theorem hasNthMarkerL_false_of_no_sub (l : List Char)
    (h : hasSubL "[nth=".data l = false) : hasNthMarkerL l = false := by
  cases hm : hasNthMarkerL l with
  | false => rfl
  | true => exact absurd (hasNthMarkerL_imp_sub l hm) (by rw [h]; simp)

theorem scanRefNth_none_of_no_nth (l : List Char)
    (h : hasSubL "[nth=".data l = false) : scanRefNth l = none := by
  induction l with
  | nil => rfl
  | cons c cs ih =>
      rw [scanRefNth]
      have hcs : hasSubL "[nth=".data cs = false := (hasSubL_cons_false _ _ _ h).2
      cases htr : tryRefAt (c :: cs) with
      | none => exact ih hcs
      | some dr =>
          have hmf : hasNthMarkerL dr.2 = false :=
            hasNthMarkerL_false_of_no_sub dr.2
              (hasSubL_of_suffix_false _ _ _ (tryRefAt_rest_suffix _ _ htr) h)
          simp only [hmf, Bool.false_eq_true, if_false]
          exact ih hcs

theorem head?_append_cons (c : Char) (t r : List Char) :
    ((c :: t) ++ r).head? = some c := rfl

theorem isEmpty_false_of_ne_nil (l : List Char) (h : l ≠ []) :
    l.isEmpty = false := by
  cases l with
  | nil => exact absurd rfl h
  | cons c cs => rfl

theorem tryNthAt_marker (ds r : List Char) (hne : ds ≠ [])
    (hdig : ∀ c ∈ ds, c.isDigit = true) :
    tryNthAt ("[nth=".data ++ ds ++ ']' :: r) = some r := by
  have hpre : "[nth=".data.isPrefixOf ("[nth=".data ++ ds ++ ']' :: r) = true :=
    List.isPrefixOf_iff_prefix.mpr (List.prefix_append _ _)
  have h5 : ("[nth=".data ++ ds ++ ']' :: r).drop 5 = ds ++ ']' :: r := by
    rw [show (5 : Nat) = "[nth=".data.length from rfl]
    exact List.drop_left _ _
  have htw : (ds ++ ']' :: r).takeWhile Char.isDigit = ds := by
    rw [takeWhile_append_all _ _ _ hdig, List.takeWhile_cons]
    simp
  have hd2 : (ds ++ ']' :: r).drop ds.length = ']' :: r := List.drop_left _ _
  simp [tryNthAt, hpre, h5, htw, hd2, isEmpty_false_of_ne_nil ds hne]

theorem tryRefAt_marker (ds r : List Char) (hne : ds ≠ [])
    (hdig : ∀ c ∈ ds, c.isDigit = true) :
    tryRefAt ("[ref=".data ++ ds ++ ']' :: r) = some (ds, r) := by
  have hpre : "[ref=".data.isPrefixOf ("[ref=".data ++ ds ++ ']' :: r) = true :=
    List.isPrefixOf_iff_prefix.mpr (List.prefix_append _ _)
  have h5 : ("[ref=".data ++ ds ++ ']' :: r).drop 5 = ds ++ ']' :: r := by
    rw [show (5 : Nat) = "[ref=".data.length from rfl]
    exact List.drop_left _ _
  have htw : (ds ++ ']' :: r).takeWhile Char.isDigit = ds := by
    rw [takeWhile_append_all _ _ _ hdig, List.takeWhile_cons]
    simp
  have hd2 : (ds ++ ']' :: r).drop ds.length = ']' :: r := List.drop_left _ _
  simp [tryRefAt, hpre, h5, htw, hd2, isEmpty_false_of_ne_nil ds hne]

theorem hasNthMarkerL_append_right (a b : List Char)
    (h : hasNthMarkerL b = true) : hasNthMarkerL (a ++ b) = true := by
  induction a with
  | nil => simpa using h
  | cons c cs ih =>
      rw [List.cons_append, hasNthMarkerL, Bool.or_eq_true]
      exact Or.inr ih

theorem hasNthMarkerL_marker (ds r : List Char) (hne : ds ≠ [])
    (hdig : ∀ c ∈ ds, c.isDigit = true) :
    hasNthMarkerL ("[nth=".data ++ ds ++ ']' :: r) = true := by
  show hasNthMarkerL ('[' :: ("nth=".data ++ ds ++ ']' :: r)) = true
  rw [hasNthMarkerL, Bool.or_eq_true]
  left
  rw [show ('[' :: ("nth=".data ++ ds ++ ']' :: r)) = "[nth=".data ++ ds ++ ']' :: r
    from rfl, tryNthAt_marker ds r hne hdig]
  rfl

theorem scanRefNth_skip (a rest : List Char)
    (ha : hasSubL "[ref=".data a = false)
    (hh : rest.head? = some ' ') :
    scanRefNth (a ++ rest) = scanRefNth rest := by
  induction a with
  | nil => rfl
  | cons c cs ih =>
      rw [List.cons_append, scanRefNth]
      have htr : tryRefAt (c :: (cs ++ rest)) = none := by
        cases htr' : tryRefAt (c :: (cs ++ rest)) with
        | none => rfl
        | some dr =>
            exfalso
            have hpre := tryRefAt_isSome_pre _ (by rw [htr']; rfl)
            rcases prefix_append_split "[ref=".data (c :: cs) rest hpre with
              hc | ⟨hc1, hc2⟩
            · rw [hasSubL_false_iff] at ha
              exact ha hc.isInfix
            · by_cases h5 : (c :: cs).length = 5
              · have heq : c :: cs = "[ref=".data :=
                  List.IsPrefix.eq_of_length hc1 (by rw [h5]; rfl)
                rw [hasSubL_false_iff] at ha
                exact ha (heq ▸ List.infix_refl "[ref=".data)
              · obtain ⟨r', hr'⟩ := hc2
                have hnle : (c :: cs).length ≤ 5 := by
                  have := hc1.length_le
                  simpa using this
                have hnpos : 1 ≤ (c :: cs).length := by simp
                rw [← hr'] at hh
                generalize hgen : (c :: cs).length = n at hh hnle hnpos h5
                interval_cases n
                · rw [show "[ref=".data.drop 1 = 'r' :: ['e', 'f', '='] from rfl,
                    head?_append_cons] at hh
                  exact absurd hh (by decide)
                · rw [show "[ref=".data.drop 2 = 'e' :: ['f', '='] from rfl,
                    head?_append_cons] at hh
                  exact absurd hh (by decide)
                · rw [show "[ref=".data.drop 3 = 'f' :: ['='] from rfl,
                    head?_append_cons] at hh
                  exact absurd hh (by decide)
                · rw [show "[ref=".data.drop 4 = '=' :: [] from rfl,
                    head?_append_cons] at hh
                  exact absurd hh (by decide)
                · exact h5 rfl
      rw [htr]
      exact ih (hasSubL_cons_false _ _ _ ha).2

theorem span_kill_take (p a s t : List Char) (hst : s ++ t = p) (hs : s ≠ [])
    (ht : t ≠ []) (hsuf : s <:+ a)
    (hk : ∀ k, k < p.length → 0 < k → ¬ (p.take k <:+ a)) : False := by
  obtain ⟨k, hk0, hklen, hsk, _⟩ := span_shape p s t hst hs ht
  exact hk k hklen hk0 (hsk ▸ hsuf)

theorem span_kill_mem (p a s t : List Char) (c : Char) (hst : s ++ t = p)
    (hs : s ≠ []) (ht : t ≠ []) (hsuf : s <:+ a) (hp : p.head? = some c)
    (hc : c ∉ a) : False := by
  obtain ⟨k, hk0, hklen, hsk, _⟩ := span_shape p s t hst hs ht
  have hcs : c ∈ s := by
    rw [hsk]
    cases p with
    | nil => simp at hp
    | cons x xs =>
        rw [List.head?_cons, Option.some.injEq] at hp
        subst hp
        cases k with
        | zero => omega
        | succ k' => simp [List.take_succ_cons]
  exact hc (hsuf.subset hcs)

theorem suffix_of_append_right (s a b : List Char) (h : s <:+ a ++ b)
    (hlen : s.length ≤ b.length) : s <:+ b := by
  obtain ⟨r, hr⟩ := h
  have hpre : a <+: r ++ s := by rw [hr]; exact List.prefix_append a b
  rcases prefix_append_split a r s hpre with hc | ⟨hc1, _⟩
  · obtain ⟨r', hr'⟩ := hc
    refine ⟨r', ?_⟩
    have h2 : a ++ (r' ++ s) = a ++ b := by
      rw [← List.append_assoc, hr', hr]
    exact List.append_cancel_left h2
  · have hlr : r.length + s.length = a.length + b.length := by
      have := congrArg List.length hr
      simpa using this
    have hreq : r = a := hc1.eq_of_length (by have := hc1.length_le; omega)
    subst hreq
    have h3 : s = b := List.append_cancel_left hr
    rw [h3]

theorem hasSubL_false_of_sub_pattern (q p l : List Char) (hq : q <+: p)
    (h : hasSubL q l = false) : hasSubL p l = false := by
  rcases Bool.dichotomy (hasSubL p l) with hx | hx
  · exact hx
  · exact absurd (hasSubL_mono_pattern q p l hq hx)
      (by rw [h]; exact Bool.false_ne_true)

/-- Appending a marker-free piece whose first character occurs nowhere in the
pattern's tail cannot create an occurrence. -/
theorem noSub_glue_head (p a b : List Char) (c : Char)
    (ha : hasSubL p a = false) (hb : hasSubL p b = false)
    (hh : b.head? = some c) (hc : c ∉ p.drop 1) :
    hasSubL p (a ++ b) = false :=
  noSub_append p a b ha hb fun s t hst hs ht _ hpre =>
    span_kill_head p b s t c hst hs ht hpre hh hc

/-- Appending after a piece that never contains the pattern's first character
cannot create an occurrence. -/
theorem noSub_glue_mem (p a b : List Char) (c : Char)
    (ha : hasSubL p a = false) (hb : hasSubL p b = false)
    (hp : p.head? = some c) (hc : c ∉ a) :
    hasSubL p (a ++ b) = false :=
  noSub_append p a b ha hb fun s t hst hs ht hsuf _ =>
    span_kill_mem p a s t c hst hs ht hsuf hp hc

/-- Appending after a piece none of whose suffixes opens the pattern cannot
create an occurrence. -/
theorem noSub_glue_take (p a b : List Char)
    (ha : hasSubL p a = false) (hb : hasSubL p b = false)
    (hk : ∀ k, k < p.length → 0 < k → ¬ (p.take k <:+ a)) :
    hasSubL p (a ++ b) = false :=
  noSub_append p a b ha hb fun s t hst hs ht hsuf _ =>
    span_kill_take p a s t hst hs ht hsuf hk

/-- Like `noSub_glue_take` when only the last chunk `w` of the left piece is
known: long enough to contain every candidate span start. -/
theorem noSub_glue_tail (p a w b : List Char)
    (ha : hasSubL p (a ++ w) = false) (hb : hasSubL p b = false)
    (hlen : p.length ≤ w.length + 1)
    (hk : ∀ k, k < p.length → 0 < k → ¬ (p.take k <:+ w)) :
    hasSubL p ((a ++ w) ++ b) = false :=
  noSub_append p (a ++ w) b ha hb fun s t hst hs ht hsuf _ => by
    obtain ⟨k, hk0, hklen, hsk, _⟩ := span_shape p s t hst hs ht
    have hsl : s.length ≤ w.length := by
      rw [hsk, List.length_take]
      omega
    exact hk k hklen hk0 (hsk ▸ suffix_of_append_right s a w hsuf hsl)

/-- The handle digits and closing bracket of a `[ref=]` marker spell no
`[nth=`. -/
theorem no_nth_refpart (hh : List Char) (hdig : ∀ c ∈ hh, c.isDigit = true) :
    hasSubL "[nth=".data (" [ref=".data ++ (hh ++ [']'])) = false := by
  have hhh : hasSubL "[nth=".data hh = false :=
    hasSubL_of_head_not_mem _ _ '[' rfl fun hc => absurd (hdig '[' hc) (by decide)
  have h1 : hasSubL "[nth=".data (hh ++ [']']) = false :=
    noSub_glue_head _ _ _ ']' hhh (by decide) rfl (by decide)
  refine noSub_append _ _ _ (by decide) h1 ?_
  intro s t hst hs ht hsuf _
  exact span_kill_last _ " [ref=".data s t '=' hst hs ht hsuf (by decide) (by decide)

/-- A clean base followed by its `[ref=]` marker spells no `[nth=`. -/
theorem no_nth_base_refseg (base hh : List Char)
    (hbase : hasSubL "[nth=".data base = false)
    (hdig : ∀ c ∈ hh, c.isDigit = true) :
    hasSubL "[nth=".data (base ++ (" [ref=".data ++ (hh ++ [']']))) = false :=
  noSub_glue_head _ _ _ ' ' hbase (no_nth_refpart hh hdig) rfl (by decide)

/-- A `[nth=k]` marker with `k ≥ 1` spells no literal `[nth=0]`. -/
theorem no_nth0_marker (kk : List Char) (hdig : ∀ c ∈ kk, c.isDigit = true)
    (hne : kk ≠ []) (hh0 : kk.head? ≠ some '0') :
    hasSubL "[nth=0]".data (" [nth=".data ++ (kk ++ [']'])) = false := by
  have hkk : hasSubL "[nth=0]".data (kk ++ [']']) = false := by
    refine hasSubL_of_head_not_mem _ _ '[' rfl fun hc => ?_
    rcases List.mem_append.mp hc with hc | hc
    · exact absurd (hdig '[' hc) (by decide)
    · exact absurd hc (by decide)
  refine noSub_append _ _ _ (hasSubL_of_length_lt _ _ (by decide)) hkk ?_
  intro s t hst hs ht hsuf hpre
  obtain ⟨k, hk0, hklen, hsk, htk⟩ := span_shape _ s t hst hs ht
  have hk7 : k < 7 := by simpa using hklen
  subst hsk
  subst htk
  interval_cases k
  · exact absurd hsuf (by decide)
  · exact absurd hsuf (by decide)
  · exact absurd hsuf (by decide)
  · exact absurd hsuf (by decide)
  · obtain ⟨r, hr⟩ := hpre
    rw [show "[nth=0]".data.drop 5 = '0' :: [']'] from rfl] at hr
    cases kk with
    | nil => exact hne rfl
    | cons k0 ks =>
        have h0 : '0' = k0 := by
          have := congrArg List.head? hr
          simpa using this
        exact hh0 (by rw [List.head?_cons, ← h0])
  · exact absurd hsuf (by decide)

/-- The full marker-bearing reference line spells no literal `[nth=0]` when
its duplicate index is at least 1. -/
theorem no_nth0_line (base hh kk : List Char)
    (hbase : hasSubL "[nth=".data base = false)
    (hdigh : ∀ c ∈ hh, c.isDigit = true)
    (hdigk : ∀ c ∈ kk, c.isDigit = true)
    (hne : kk ≠ []) (hh0 : kk.head? ≠ some '0') :
    hasSubL "[nth=0]".data
      ((base ++ (" [ref=".data ++ (hh ++ [']']))) ++
        (" [nth=".data ++ (kk ++ [']']))) = false := by
  have hleft : hasSubL "[nth=0]".data (base ++ (" [ref=".data ++ (hh ++ [']']))) = false :=
    hasSubL_false_of_sub_pattern _ _ _ (by decide) (no_nth_base_refseg base hh hbase hdigh)
  exact noSub_glue_head _ _ _ ' ' hleft (no_nth0_marker kk hdigk hne hh0) rfl (by decide)

theorem tryRefAt_space (X : List Char) : tryRefAt (' ' :: X) = none := by
  have hp : "[ref=".data.isPrefixOf (' ' :: X) = false := rfl
  rw [tryRefAt, hp]
  simp

theorem scanRefNth_cons_none (c : Char) (cs : List Char)
    (h : tryRefAt (c :: cs) = none) : scanRefNth (c :: cs) = scanRefNth cs := by
  rw [scanRefNth, h]

theorem scanRefNth_hit (l ds r : List Char) (hl : l ≠ [])
    (h : tryRefAt l = some (ds, r)) (hM : hasNthMarkerL r = true) :
    scanRefNth l = some ⟨ds⟩ := by
  cases l with
  | nil => exact absurd rfl hl
  | cons c cs =>
      rw [scanRefNth, h]
      simp [hM]

/-- The cleanup capture scan on a clean base followed by `[ref=]` and a
well-formed `[nth=]` marker tail returns the handle digits. -/
theorem scanRefNth_line (base hh M : List Char)
    (hbase : hasSubL "[ref=".data base = false)
    (hdig : ∀ c ∈ hh, c.isDigit = true) (hne : hh ≠ [])
    (hM : hasNthMarkerL M = true) :
    scanRefNth (base ++ (" [ref=".data ++ hh ++ ']' :: M)) = some ⟨hh⟩ := by
  rw [scanRefNth_skip base (" [ref=".data ++ hh ++ ']' :: M) hbase rfl]
  rw [show " [ref=".data ++ hh ++ ']' :: M =
    ' ' :: ("[ref=".data ++ hh ++ ']' :: M) from rfl]
  rw [scanRefNth_cons_none _ _ (tryRefAt_space _)]
  exact scanRefNth_hit _ hh M (by simp) (tryRefAt_marker hh M hne hdig) hM

/-- `cleanLine` leaves a line without any `[nth=` untouched. -/
theorem cleanLine_id_of_no_nth (refs : List (String × AXRefInfo))
    (dupKeys : List String) (line : String)
    (hno : hasSubL "[nth=".data line.data = false) :
    cleanLine refs dupKeys line = line := by
  have h1 : jsIncludes line "[nth=0]" = false :=
    hasSubL_false_of_sub_pattern "[nth=".data "[nth=0]".data line.data (by decide) hno
  rw [cleanLine]
  simp only [h1, Bool.false_eq_true, if_false]
  rw [scanRefNth_none_of_no_nth _ hno]

/-- `cleanLine` keeps the `[nth=]` marker of a line whose referenced table
entry sits in a duplicate group. -/
theorem cleanLine_id_dup (refs : List (String × AXRefInfo)) (dupKeys : List String)
    (base : String) (idx k : Nat) (info : AXRefInfo)
    (hbref : hasSubL "[ref=".data base.data = false)
    (hbnth : hasSubL "[nth=".data base.data = false)
    (hk : 1 ≤ k)
    (hget : amGet refs (natToStr idx) = some info)
    (hdup : dupKeys.contains (getKey info.role info.name) = true) :
    cleanLine refs dupKeys
      (base ++ " [ref=" ++ natToStr idx ++ "]" ++ (" [nth=" ++ natToStr k ++ "]")) =
      base ++ " [ref=" ++ natToStr idx ++ "]" ++ (" [nth=" ++ natToStr k ++ "]") := by
  have hflat1 : (base ++ " [ref=" ++ natToStr idx ++ "]" ++
      (" [nth=" ++ natToStr k ++ "]")).data =
      (base.data ++ (" [ref=".data ++ ((natToStr idx).data ++ [']']))) ++
        (" [nth=".data ++ ((natToStr k).data ++ [']'])) := by
    simp only [String.data_append, List.append_assoc,
      show ("]" : String).data = [']'] from rfl]
  have hflat2 : (base ++ " [ref=" ++ natToStr idx ++ "]" ++
      (" [nth=" ++ natToStr k ++ "]")).data =
      base.data ++ (" [ref=".data ++ (natToStr idx).data ++
        ']' :: (' ' :: ("[nth=".data ++ (natToStr k).data ++ ']' :: []))) := by
    simp only [String.data_append, List.append_assoc, List.cons_append,
      List.singleton_append, List.nil_append,
      show ("]" : String).data = [']'] from rfl,
      show (" [nth=" : String).data = ' ' :: ("[nth=" : String).data from rfl]
  have h1 : jsIncludes (base ++ " [ref=" ++ natToStr idx ++ "]" ++
      (" [nth=" ++ natToStr k ++ "]")) "[nth=0]" = false := by
    show hasSubL "[nth=0]".data _ = false
    rw [hflat1]
    exact no_nth0_line base.data (natToStr idx).data (natToStr k).data hbnth
      (natToStr_all_digits idx) (natToStr_all_digits k) (natToStr_data_ne_nil k)
      (natToStr_head_ne_zero k hk)
  have h2 : scanRefNth (base ++ " [ref=" ++ natToStr idx ++ "]" ++
      (" [nth=" ++ natToStr k ++ "]")).data = some (natToStr idx) := by
    rw [hflat2]
    have hM : hasNthMarkerL
        (' ' :: ("[nth=".data ++ (natToStr k).data ++ ']' :: [])) = true := by
      rw [hasNthMarkerL, Bool.or_eq_true]
      exact Or.inr (hasNthMarkerL_marker _ [] (natToStr_data_ne_nil k)
        (natToStr_all_digits k))
    exact scanRefNth_line base.data (natToStr idx).data _ hbref
      (natToStr_all_digits idx) (natToStr_data_ne_nil idx) hM
  rw [cleanLine]
  simp only [h1, Bool.false_eq_true, if_false, h2, hget, hdup, if_true]

theorem amGet_get_of_nodup [DecidableEq κ] (m : List (κ × α))
    (hnd : (m.map Prod.fst).Nodup) (i : Nat) (hi : i < m.length) :
    amGet m (m.get ⟨i, hi⟩).1 = some (m.get ⟨i, hi⟩).2 := by
  induction m generalizing i with
  | nil => exact absurd hi (Nat.not_lt_zero i)
  | cons e m ih =>
      rw [List.map_cons, List.nodup_cons] at hnd
      cases e with
      | mk kk v =>
          cases i with
          | zero =>
              show amGet ((kk, v) :: m) kk = some v
              rw [amGet, if_pos rfl]
          | succ j =>
              have hj : j < m.length := by simpa using hi
              have hne : kk ≠ (m.get ⟨j, hj⟩).1 := by
                intro hc
                have hmem : (m.get ⟨j, hj⟩).1 ∈ m.map Prod.fst :=
                  List.mem_map_of_mem Prod.fst (List.get_mem m j hj)
                rw [← hc] at hmem
                exact hnd.1 hmem
              show amGet ((kk, v) :: m) ((m.get ⟨j, hj⟩)).1 = some (m.get ⟨j, hj⟩).2
              rw [amGet, if_neg hne]
              exact ih hnd.2 j hj

theorem contains_iff_mem (l : List String) (a : String) :
    l.contains a = true ↔ a ∈ l := by
  constructor
  · intro h; simpa using h
  · intro h; simpa using h

theorem bool_eq_of_iff (a b : Bool) (h : a = true ↔ b = true) : a = b := by
  rcases Bool.dichotomy a with h1 | h1 <;> rcases Bool.dichotomy b with h2 | h2 <;>
    simp_all

theorem amGet_of_mem_nodup [DecidableEq κ] (m : List (κ × α)) (k : κ) (v : α)
    (hmem : (k, v) ∈ m) (hnd : (m.map Prod.fst).Nodup) : amGet m k = some v := by
  induction m with
  | nil => exact absurd hmem (List.not_mem_nil _)
  | cons e m ih =>
      rw [List.map_cons, List.nodup_cons] at hnd
      cases e with
      | mk k' v' =>
          rcases List.mem_cons.mp hmem with he | he
          · injection he with he1 he2
            subst he1; subst he2
            rw [amGet, if_pos rfl]
          · have hne : k' ≠ k := by
              intro hc
              have h1 := hnd.1
              rw [hc] at h1
              exact h1 (List.mem_map.mpr ⟨(k, v), he, rfl⟩)
            rw [amGet, if_neg hne]
            exact ih he hnd.2

theorem amGet_some_mem [DecidableEq κ] (m : List (κ × α)) (k : κ) (v : α)
    (h : amGet m k = some v) : (k, v) ∈ m := by
  induction m with
  | nil => exact absurd h (by rw [amGet]; exact Option.noConfusion)
  | cons e m ih =>
      cases e with
      | mk k' v' =>
          rw [amGet] at h
          by_cases he : k' = k
          · rw [if_pos he] at h
            injection h with h2
            subst he; subst h2
            exact List.mem_cons_self _ _
          · rw [if_neg he] at h
            exact List.mem_cons_of_mem _ (ih h)

/-- Facts shared by every role string that can receive a reference: the
lower-first mapping fixes it, and it spells no colon, bracket or marker. -/
theorem eligible_role_facts (role : String)
    (h : role ∈ INTERACTIVE_ROLES ∨ role ∈ CONTENT_ROLES_WITH_REF) :
    lowerFirst role = role ∧ ':' ∉ role.data ∧ '[' ∉ role.data ∧ noMark role := by
  rcases h with h | h <;> fin_cases h <;>
    exact ⟨by decide, by decide, by decide, by decide, by decide⟩

theorem shouldAssignRef_false_of_contains (opts : FormatOptions) (role : String)
    (h1 : INTERACTIVE_ROLES.contains role = false)
    (h2 : CONTENT_ROLES_WITH_REF.contains role = false) :
    shouldAssignRef opts role = false := by
  rw [shouldAssignRef]
  rcases Bool.dichotomy opts.interactive with hi | hi <;> rw [hi]
  · rw [if_neg Bool.false_ne_true, h1, h2]
    rfl
  · rw [if_pos rfl, h1]

theorem shouldAssignRef_mem (opts : FormatOptions) (role : String)
    (h : shouldAssignRef opts role = true) :
    role ∈ INTERACTIVE_ROLES ∨ role ∈ CONTENT_ROLES_WITH_REF := by
  rcases Bool.dichotomy (INTERACTIVE_ROLES.contains role) with h1 | h1
  · rcases Bool.dichotomy (CONTENT_ROLES_WITH_REF.contains role) with h2 | h2
    · exact absurd h (by rw [shouldAssignRef_false_of_contains opts role h1 h2]; exact Bool.false_ne_true)
    · exact Or.inr ((contains_iff_mem _ _).mp h2)
  · exact Or.inl ((contains_iff_mem _ _).mp h1)

theorem shouldAssignRef_interactive (opts : FormatOptions) (role : String)
    (hi : opts.interactive = true) :
    shouldAssignRef opts role = INTERACTIVE_ROLES.contains role := by
  rw [shouldAssignRef, hi]
  simp

theorem colon_append_inj (r : List Char) : ∀ (r' x x' : List Char), ':' ∉ r →
    ':' ∉ r' → r ++ ':' :: x = r' ++ ':' :: x' → r = r' ∧ x = x' := by
  induction r with
  | nil =>
      intro r' x x' _ hr' h
      cases r' with
      | nil => simpa using h
      | cons c rs =>
          rw [List.nil_append, List.cons_append] at h
          injection h with h1 h2
          rw [← h1] at hr'
          exact absurd (List.mem_cons_self _ _) hr'
  | cons a rs ih =>
      intro r' x x' hr hr' h
      cases r' with
      | nil =>
          rw [List.nil_append, List.cons_append] at h
          injection h with h1 h2
          rw [h1] at hr
          exact absurd (List.mem_cons_self _ _) hr
      | cons b rs' =>
          rw [List.cons_append, List.cons_append] at h
          injection h with h1 h2
          subst h1
          have hrs : ':' ∉ rs := fun hc => hr (List.mem_cons_of_mem _ hc)
          have hrs' : ':' ∉ rs' := fun hc => hr' (List.mem_cons_of_mem _ hc)
          obtain ⟨e1, e2⟩ := ih rs' x x' hrs hrs' h2
          exact ⟨by rw [e1], e2⟩

/-- The tracker key determines role and display name as long as the role is
colon-free and the name is never the tracked-as-present empty string. -/
theorem getKey_inj (role role' : String) (nm nm' : Option String)
    (hr : ':' ∉ role.data) (hr' : ':' ∉ role'.data)
    (hn : nm ≠ some "") (hn' : nm' ≠ some "")
    (h : getKey role nm = getKey role' nm') : role = role' ∧ nm = nm' := by
  have e : ∀ (r : String) (n : Option String),
      (r ++ ":" ++ n.getD "").data = r.data ++ ':' :: (n.getD "").data := by
    intro r n
    simp only [String.data_append, List.append_assoc, List.singleton_append,
      show (":" : String).data = [':'] from rfl]
  have hd2 : role.data ++ ':' :: (nm.getD "").data =
      role'.data ++ ':' :: (nm'.getD "").data := by
    rw [← e, ← e]
    rw [getKey, getKey] at h
    rw [h]
  obtain ⟨e1, e2⟩ := colon_append_inj role.data role'.data _ _ hr hr' hd2
  refine ⟨String.ext e1, ?_⟩
  have e2' : nm.getD "" = nm'.getD "" := String.ext e2
  cases nm with
  | none =>
      cases nm' with
      | none => rfl
      | some s => exact absurd (congrArg some e2'.symm) hn'
  | some s =>
      cases nm' with
      | none => exact absurd (congrArg some e2') hn
      | some s' => rw [Option.getD_some, Option.getD_some] at e2'; rw [e2']

theorem samePair_iff (e e' : String × AXRefInfo) :
    samePair e e' = true ↔ (e'.2.role = e.2.role ∧ e'.2.name = e.2.name) := by
  rw [samePair, Bool.and_eq_true, beq_iff_eq, beq_iff_eq]

/-- On clean entries, counting by tracker key and counting by (role, name)
pair agree. -/
theorem countKey_eq_countP (refs : List (String × AXRefInfo))
    (e : String × AXRefInfo)
    (hre : ':' ∉ e.2.role.data) (hne : e.2.name ≠ some "")
    (hall : ∀ f ∈ refs, ':' ∉ f.2.role.data ∧ f.2.name ≠ some "") :
    countKey refs (entryKey e.2) = refs.countP (samePair e) := by
  rw [countKey]
  refine List.countP_congr fun f hf => ?_
  rw [beq_iff_eq, samePair_iff]
  constructor
  · intro h
    exact getKey_inj _ _ _ _ (hall f hf).1 hre (hall f hf).2 hne h
  · rintro ⟨h1, h2⟩
    rw [entryKey, entryKey, h1, h2]

/-! ### `noMark` composition -/

theorem noMark_append_head (a b : String) (c : Char) (ha : noMark a)
    (hb : noMark b) (hh : b.data.head? = some c)
    (hc1 : c ∉ "ref=".data) (hc2 : c ∉ "nth=".data) : noMark (a ++ b) := by
  constructor
  · show hasSubL "[ref=".data (a ++ b).data = false
    rw [String.data_append]
    exact noSub_glue_head _ _ _ c ha.1 hb.1 hh hc1
  · show hasSubL "[nth=".data (a ++ b).data = false
    rw [String.data_append]
    exact noSub_glue_head _ _ _ c ha.2 hb.2 hh hc2

theorem noMark_append_mem (a b : String) (ha : noMark a) (hb : noMark b)
    (hc : '[' ∉ a.data) : noMark (a ++ b) := by
  constructor
  · show hasSubL "[ref=".data (a ++ b).data = false
    rw [String.data_append]
    exact noSub_glue_mem _ _ _ '[' ha.1 hb.1 rfl hc
  · show hasSubL "[nth=".data (a ++ b).data = false
    rw [String.data_append]
    exact noSub_glue_mem _ _ _ '[' ha.2 hb.2 rfl hc

theorem noMark_append_level (a b : String) (ha : noMark (a ++ " [level="))
    (hb : noMark b) : noMark ((a ++ " [level=") ++ b) := by
  have h1 : hasSubL "[ref=".data ((a ++ " [level=").data) = false := ha.1
  have h2 : hasSubL "[nth=".data ((a ++ " [level=").data) = false := ha.2
  rw [String.data_append] at h1 h2
  constructor
  · show hasSubL "[ref=".data ((a ++ " [level=") ++ b).data = false
    rw [String.data_append, String.data_append]
    exact noSub_glue_tail _ a.data " [level=".data b.data h1 hb.1 (by decide) (by decide)
  · show hasSubL "[nth=".data ((a ++ " [level=") ++ b).data = false
    rw [String.data_append, String.data_append]
    exact noSub_glue_tail _ a.data " [level=".data b.data h2 hb.2 (by decide) (by decide)

theorem noMark_indentStr (depth : Nat) : noMark (indentStr depth) := by
  constructor <;>
  · show hasSubL _ (List.replicate (2 * depth) ' ') = false
    refine hasSubL_of_head_not_mem _ _ '[' rfl fun hc => ?_
    have := (List.mem_replicate.mp hc).2
    exact absurd this (by decide)

theorem not_bracket_indentStr (depth : Nat) : '[' ∉ (indentStr depth).data := by
  intro hc
  have := (List.mem_replicate.mp hc).2
  exact absurd this (by decide)

/-- The dash-role stem of every rendered line is marker-free. -/
theorem noMark_stem (depth : Nat) (role : String) (hrole : noMark role) :
    noMark (indentStr depth ++ "- " ++ role) := by
  refine noMark_append_mem _ _ ?_ hrole ?_
  · exact noMark_append_head _ _ '-' (noMark_indentStr depth) ⟨by decide, by decide⟩
      rfl (by decide) (by decide)
  · intro hc
    rw [String.data_append] at hc
    rcases List.mem_append.mp hc with hc | hc
    · exact not_bracket_indentStr depth hc
    · exact absurd hc (by decide)

/-- Appending the quoted display name keeps a line marker-free. -/
theorem noMark_quoted (a t : String) (ha : noMark a) (hbr : '[' ∉ a.data)
    (ht : noMark t) : noMark (a ++ " \"" ++ t ++ "\"") := by
  have h1 : noMark (a ++ " \"") :=
    noMark_append_head _ _ ' ' ha ⟨by decide, by decide⟩ rfl (by decide) (by decide)
  have h2 : noMark (a ++ " \"" ++ t) := by
    refine noMark_append_mem _ _ h1 ht ?_
    intro hc
    rw [String.data_append] at hc
    rcases List.mem_append.mp hc with hc | hc
    · exact hbr hc
    · exact absurd hc (by decide)
  exact noMark_append_head _ _ '"' h2 ⟨by decide, by decide⟩ rfl (by decide) (by decide)

/-- Appending the heading-level marker keeps a line marker-free. -/
theorem noMark_level (a lv : String) (ha : noMark a) (hlv : noMark lv) :
    noMark (a ++ " [level=" ++ lv ++ "]") := by
  have h1 : noMark (a ++ " [level=") :=
    noMark_append_head _ _ ' ' ha ⟨by decide, by decide⟩ rfl (by decide) (by decide)
  have h2 : noMark (a ++ " [level=" ++ lv) := noMark_append_level a lv h1 hlv
  exact noMark_append_head _ _ ']' h2 ⟨by decide, by decide⟩ rfl (by decide) (by decide)

/-- Membership in the per-key handle index, via the invariant fields. -/
theorem mem_dupKeys_iff (refs : List (String × AXRefInfo))
    (refsByKey : List (String × List String)) (k : String)
    (hok : ∀ k', (amGet refsByKey k').getD [] =
      (refs.filter fun e => entryKey e.2 == k').map Prod.fst)
    (hnd : (refsByKey.map Prod.fst).Nodup) :
    k ∈ getDuplicateKeys refsByKey ↔ 1 < countKey refs k := by
  have hlen : ∀ k', ((amGet refsByKey k').getD []).length = countKey refs k' := by
    intro k'
    rw [hok k', List.length_map, countKey, List.countP_eq_length_filter]
  constructor
  · intro h
    rw [getDuplicateKeys] at h
    obtain ⟨e, he, hfst⟩ := List.mem_map.mp h
    have he2 := List.mem_filter.mp he
    have hget : amGet refsByKey e.1 = some e.2 := by
      cases e with
      | mk k1 l1 => exact amGet_of_mem_nodup _ _ _ he2.1 hnd
    have := hlen e.1
    rw [hget] at this
    rw [← hfst, ← this]
    simpa using he2.2
  · intro h
    have hl := hlen k
    cases hget : amGet refsByKey k with
    | none =>
        rw [hget] at hl
        simp at hl
        omega
    | some l =>
        rw [hget] at hl
        rw [getDuplicateKeys]
        refine List.mem_map.mpr ⟨(k, l), List.mem_filter.mpr ⟨amGet_some_mem _ _ _ hget, ?_⟩, rfl⟩
        simp only [Option.getD_some] at hl
        simpa using hl ▸ h

theorem countP_one (p : α → Bool) (a : α) :
    List.countP p [a] = if p a then 1 else 0 := by
  simp [List.countP_cons]

theorem countKey_append_one (refs : List (String × AXRefInfo))
    (e : String × AXRefInfo) (k : String) :
    countKey (refs ++ [e]) k =
      countKey refs k + (if entryKey e.2 == k then 1 else 0) := by
  rw [countKey, List.countP_append, countKey, countP_one]

theorem append_cons_eq_snoc (l₁ : List α) (e : α) (l₂ r : List α) (x : α)
    (h : l₁ ++ e :: l₂ = r ++ [x]) :
    (∃ l₂', r = l₁ ++ e :: l₂' ∧ l₂ = l₂' ++ [x]) ∨ (l₁ = r ∧ e = x ∧ l₂ = []) := by
  rcases List.eq_nil_or_concat l₂ with h2 | ⟨l₂', y, h2⟩
  · subst h2
    right
    obtain ⟨h3, h4⟩ := List.append_inj' h rfl
    refine ⟨h3, ?_, rfl⟩
    injection h4 with h5
  · subst h2
    left
    have h' : (l₁ ++ e :: l₂') ++ [y] = r ++ [x] := by
      rw [← h, List.concat_eq_append, List.append_assoc, List.cons_append]
    obtain ⟨h3, h4⟩ := List.append_inj' h' rfl
    have hy : y = x := by injection h4
    exact ⟨l₂', h3.symm, by rw [hy, List.concat_eq_append]⟩

theorem not_bracket_stem (depth : Nat) (role : String) (h : '[' ∉ role.data) :
    '[' ∉ (indentStr depth ++ "- " ++ role).data := by
  intro hc
  rw [String.data_append, String.data_append] at hc
  rcases List.mem_append.mp hc with hc | hc
  · rcases List.mem_append.mp hc with hc | hc
    · exact not_bracket_indentStr depth hc
    · exact absurd hc (by decide)
  · exact h hc

theorem getProperty_clean (node : AXNode) (hclean : cleanNode node)
    (propName lv : String) (h : getProperty node propName = some lv) :
    noMark lv := by
  rw [getProperty] at h
  obtain ⟨p, hp1, hp2⟩ := Option.bind_eq_some.mp h
  have hpm := List.mem_of_find?_eq_some hp1
  have h2 := hclean.2 p hpm
  rw [hp2] at h2
  exact h2

theorem renderBase_none (node : AXNode) (depth : Nat) (role nm : String)
    (h : getProperty node "level" = none) :
    renderBase node depth role nm =
      (if nm ≠ "" then (indentStr depth ++ "- " ++ lowerFirst role) ++ " \"" ++
          truncate nm 50 ++ "\"" else indentStr depth ++ "- " ++ lowerFirst role) := by
  simp only [renderBase, h]

theorem renderBase_some (node : AXNode) (depth : Nat) (role nm lv : String)
    (h : getProperty node "level" = some lv) :
    renderBase node depth role nm =
      (if nm ≠ "" then (indentStr depth ++ "- " ++ lowerFirst role) ++ " \"" ++
          truncate nm 50 ++ "\"" else indentStr depth ++ "- " ++ lowerFirst role) ++
        " [level=" ++ lv ++ "]" := by
  simp only [renderBase, h]

/-- The rendered stem-name-level part of one emitted line is marker-free on
clean inputs. -/
theorem noMark_renderBase (node : AXNode) (depth : Nat) (role nm : String)
    (hrole : noMark (lowerFirst role)) (hbr : '[' ∉ (lowerFirst role).data)
    (hnm : noMark (truncate nm 50))
    (hlv : ∀ lv, getProperty node "level" = some lv → noMark lv) :
    noMark (renderBase node depth role nm) := by
  have hL0 : noMark (indentStr depth ++ "- " ++ lowerFirst role) :=
    noMark_stem depth _ hrole
  have hbr0 : '[' ∉ (indentStr depth ++ "- " ++ lowerFirst role).data :=
    not_bracket_stem depth _ hbr
  have hL1 : noMark (if nm ≠ "" then
      (indentStr depth ++ "- " ++ lowerFirst role) ++ " \"" ++
        truncate nm 50 ++ "\"" else indentStr depth ++ "- " ++ lowerFirst role) := by
    by_cases hn : nm ≠ ""
    · rw [if_pos hn]
      exact noMark_quoted _ _ hL0 hbr0 hnm
    · rw [if_neg hn]
      exact hL0
  cases hgp : getProperty node "level" with
  | none =>
      rw [renderBase_none node depth role nm hgp]
      exact hL1
  | some lv =>
      rw [renderBase_some node depth role nm lv hgp]
      exact noMark_level _ lv hL1 (hlv lv hgp)

/-- Appending rendered lines alone preserves the invariant. -/
theorem inv_lines_append (ctx : FmtCtx) (st : FmtState) (L : List String)
    (hInv : Inv ctx st) : Inv ctx { st with lines := st.lines ++ L } :=
  { hInv with
    lines_mem := fun l hl => List.mem_append_left _ (hInv.lines_mem l hl) }

/-- Logging a visit that assigns no reference preserves the invariant. -/
theorem inv_addVisit_nq (ctx : FmtCtx) (node : AXNode) (depth : Nat)
    (st : FmtState) (hInv : Inv ctx st)
    (hnode : node ∈ ctx.nodeMap.map Prod.snd)
    (hq : qualifies ctx.opts (node, depth) = false) :
    Inv ctx { st with visits := st.visits ++ [(node, depth)] } := by
  refine { hInv with core_ok := ?_, visits_src := ?_ }
  · show st.refs.map _ = ((st.visits ++ [(node, depth)]).filter _).map visitCore
    rw [List.filter_append,
      show List.filter (qualifies ctx.opts) [(node, depth)] = [] from by
        simp [List.filter_cons, hq],
      List.append_nil]
    exact hInv.core_ok
  · intro v hv
    rcases List.mem_append.mp hv with hv | hv
    · exact hInv.visits_src v hv
    · rw [List.mem_singleton] at hv
      subst hv
      exact hnode

theorem assignStep_pos (opts : FormatOptions) (node : AXNode) (depth : Nat)
    (role nm : String) (st : FmtState)
    (h1 : shouldAssignRef opts role = true)
    (h2 : node.backendDOMNodeId.isSome = true) :
    assignStep opts node depth role nm st =
      (lineOf node depth role nm st, pushState node depth role nm st) := by
  simp only [assignStep]
  rw [if_pos ⟨h1, h2⟩]
  rfl

theorem assignStep_neg (opts : FormatOptions) (node : AXNode) (depth : Nat)
    (role nm : String) (st : FmtState)
    (h : ¬ (shouldAssignRef opts role = true ∧ node.backendDOMNodeId.isSome = true)) :
    assignStep opts node depth role nm st = (renderBase node depth role nm, st) := by
  simp only [assignStep]
  rw [if_neg h]
  rfl

theorem get_snoc_last (l : List α) (x : α) (i : Nat) (hi : i < (l ++ [x]).length)
    (h : i = l.length) : (l ++ [x]).get ⟨i, hi⟩ = x := by
  subst h
  rw [List.get_eq_getElem, List.getElem_append_right] <;> simp

/-- The full reference-assignment step — ghost visit, `assignStep`'s positive
branch, pushing the rendered line and any extra lines — preserves the
invariant. -/
theorem inv_pushState (ctx : FmtCtx) (node : AXNode) (depth : Nat) (st : FmtState)
    (extra : List String) (hInv : Inv ctx st)
    (hnode : node ∈ ctx.nodeMap.map Prod.snd)
    (hni : node.ignored = false) (hdok : depthOk ctx.opts depth = true)
    (hSAR : shouldAssignRef ctx.opts (roleOf node) = true)
    (hbid : node.backendDOMNodeId.isSome = true) :
    Inv ctx
      { lines := st.lines ++
          lineOf node depth (roleOf node) (trimmedName node) st :: extra,
        refs := st.refs ++ [(natToStr st.refCounter,
          infoOf node (roleOf node) (trimmedName node) st)],
        refCounter := st.refCounter + 1,
        counts := amSet st.counts (keyOf (roleOf node) (trimmedName node))
          (nthOf st (roleOf node) (trimmedName node) + 1),
        refsByKey := amSet st.refsByKey (keyOf (roleOf node) (trimmedName node))
          ((amGet st.refsByKey (keyOf (roleOf node) (trimmedName node))).getD [] ++
            [natToStr st.refCounter]),
        visits := st.visits ++ [(node, depth)],
        refLines := st.refLines ++
          [lineOf node depth (roleOf node) (trimmedName node) st] } := by
  obtain ⟨hlf, hcolon, hbr, hnomark⟩ :=
    eligible_role_facts _ (shouldAssignRef_mem ctx.opts (roleOf node) hSAR)
  have hkey : entryKey (infoOf node (roleOf node) (trimmedName node) st) =
      keyOf (roleOf node) (trimmedName node) := by
    simp only [entryKey, infoOf, keyOf, hlf]
  have hnth : nthOf st (roleOf node) (trimmedName node) =
      countKey st.refs (keyOf (roleOf node) (trimmedName node)) :=
    hInv.counts_ok (keyOf (roleOf node) (trimmedName node))
  refine ⟨?_, ?_, ?_, ?_, ?_, ?_, ?_, ?_, ?_, ?_, ?_, ?_, ?_⟩
  · -- counter_eq
    simp [hInv.counter_eq]
  · -- handles
    simp [hInv.handles, hInv.counter_eq, List.range_succ]
  · -- counts_ok
    intro k'
    show (amGet (amSet st.counts _ _) k').getD 0 = _
    rw [countKey_append_one]
    by_cases hk : keyOf (roleOf node) (trimmedName node) = k'
    · subst hk
      rw [amGet_amSet_self]
      simp only [Option.getD_some, hkey, beq_self_eq_true, if_true]
      rw [hnth]
    · rw [amGet_amSet_ne _ _ _ _ (Ne.symm hk)]
      have hne2 : (entryKey (infoOf node (roleOf node) (trimmedName node) st) == k') =
          false := beq_eq_false_iff_ne.mpr (by rw [hkey]; exact hk)
      simp only [hne2, Bool.false_eq_true, if_false, Nat.add_zero]
      exact hInv.counts_ok k'
  · -- byKey_ok
    intro k'
    by_cases hk : keyOf (roleOf node) (trimmedName node) = k'
    · subst hk
      rw [amGet_amSet_self]
      simp only [Option.getD_some]
      rw [hInv.byKey_ok (keyOf (roleOf node) (trimmedName node)), List.filter_append]
      rw [show List.filter
          (fun e => entryKey e.2 == keyOf (roleOf node) (trimmedName node))
          [(natToStr st.refCounter, infoOf node (roleOf node) (trimmedName node) st)] =
          [(natToStr st.refCounter, infoOf node (roleOf node) (trimmedName node) st)]
        from by simp [List.filter_cons, hkey]]
      rw [List.map_append]
      rfl
    · rw [amGet_amSet_ne _ _ _ _ (Ne.symm hk)]
      rw [hInv.byKey_ok k', List.filter_append]
      rw [show List.filter (fun e => entryKey e.2 == k')
          [(natToStr st.refCounter, infoOf node (roleOf node) (trimmedName node) st)] =
          [] from by
        simp only [List.filter_cons, hkey]
        rw [show (keyOf (roleOf node) (trimmedName node) == k') = false from
          beq_eq_false_iff_ne.mpr hk]
        rfl]
      simp
  · -- byKey_nodup
    exact nodup_keys_amSet _ _ _ hInv.byKey_nodup
  · -- nth_ok
    intro l₁ e l₂ hsplit
    rcases append_cons_eq_snoc l₁ e l₂ st.refs
        (natToStr st.refCounter, infoOf node (roleOf node) (trimmedName node) st)
        hsplit.symm with ⟨l₂', hr, _⟩ | ⟨hl, he, _⟩
    · exact hInv.nth_ok l₁ e l₂' hr
    · subst hl
      subst he
      show (infoOf node (roleOf node) (trimmedName node) st).nth = _
      rw [hkey, ← hnth]
      rfl
  · -- roles_ok
    intro e he
    rcases List.mem_append.mp he with he | he
    · exact hInv.roles_ok e he
    · rw [List.mem_singleton] at he
      subst he
      show (infoOf node (roleOf node) (trimmedName node) st).role ∈ _ ∨ _
      rw [show (infoOf node (roleOf node) (trimmedName node) st).role =
        lowerFirst (roleOf node) from rfl, hlf]
      exact shouldAssignRef_mem ctx.opts (roleOf node) hSAR
  · -- name_ok
    intro e he
    rcases List.mem_append.mp he with he | he
    · exact hInv.name_ok e he
    · rw [List.mem_singleton] at he
      subst he
      show (infoOf node (roleOf node) (trimmedName node) st).name ≠ some ""
      rw [show (infoOf node (roleOf node) (trimmedName node) st).name =
        (if trimmedName node = "" then none else some (trimmedName node)) from rfl]
      by_cases hn : trimmedName node = ""
      · rw [if_pos hn]
        exact fun hc => Option.noConfusion hc
      · rw [if_neg hn]
        intro hc
        injection hc with hc2
        exact hn hc2
  · -- align
    simp [hInv.align]
  · -- core_ok
    have hq : qualifies ctx.opts (node, depth) = true := by
      simp [qualifies, hni, hdok, hSAR, hbid]
    show (st.refs ++ _).map _ = ((st.visits ++ [(node, depth)]).filter _).map _
    rw [List.map_append, List.filter_append, hInv.core_ok]
    rw [show List.filter (qualifies ctx.opts) [(node, depth)] = [(node, depth)]
      from by simp [List.filter_cons, hq]]
    rw [List.map_append]
    simp [entryCore, infoOf, visitCore]
  · -- visits_src
    intro v hv
    rcases List.mem_append.mp hv with hv | hv
    · exact hInv.visits_src v hv
    · rw [List.mem_singleton] at hv
      subst hv
      exact hnode
  · -- lines_mem
    intro l hl
    rcases List.mem_append.mp hl with hl | hl
    · exact List.mem_append_left _ (hInv.lines_mem l hl)
    · rw [List.mem_singleton] at hl
      subst hl
      exact List.mem_append_right _ (List.mem_cons_self _ _)
  · -- line_spec
    intro i hi hj
    by_cases hilt : i < st.refs.length
    · have hjlt : i < st.refLines.length := by rw [hInv.align]; exact hilt
      obtain ⟨b, hb1, hb2⟩ := hInv.line_spec i hilt hjlt
      refine ⟨b, ?_, hb2⟩
      have e1 : (st.refLines ++
          [lineOf node depth (roleOf node) (trimmedName node) st]).get ⟨i, hj⟩ =
          st.refLines.get ⟨i, hjlt⟩ := by
        rw [List.get_eq_getElem, List.get_eq_getElem, List.getElem_append_left]
      have e2 : (st.refs ++ [(natToStr st.refCounter,
          infoOf node (roleOf node) (trimmedName node) st)]).get ⟨i, hi⟩ =
          st.refs.get ⟨i, hilt⟩ := by
        rw [List.get_eq_getElem, List.get_eq_getElem, List.getElem_append_left]
      rw [e1, e2]
      exact hb1
    · have hieq : i = st.refs.length := by
        have h5 : i < st.refs.length + 1 := by simpa using hi
        omega
      have e1 : (st.refLines ++
          [lineOf node depth (roleOf node) (trimmedName node) st]).get ⟨i, hj⟩ =
          lineOf node depth (roleOf node) (trimmedName node) st :=
        get_snoc_last _ _ _ hj (by rw [hieq, hInv.align])
      have e2 : (st.refs ++ [(natToStr st.refCounter,
          infoOf node (roleOf node) (trimmedName node) st)]).get ⟨i, hi⟩ =
          (natToStr st.refCounter,
            infoOf node (roleOf node) (trimmedName node) st) :=
        get_snoc_last _ _ _ hi hieq
      refine ⟨renderBase node depth (roleOf node) (trimmedName node), ?_, ?_⟩
      · rw [e1, e2]
        simp [lineOf, infoOf]
      · intro hcc
        have hclean : cleanNode node := hcc node hnode
        have h1 : noMark (lowerFirst (roleOf node)) := by rw [hlf]; exact hnomark
        have h2 : '[' ∉ (lowerFirst (roleOf node)).data := by rw [hlf]; exact hbr
        exact noMark_renderBase node depth (roleOf node) (trimmedName node)
          h1 h2 hclean.1
          (fun lv hlv => getProperty_clean node hclean "level" lv hlv)

/-- The child loop preserves any property preserved by the recursive call. -/
theorem traverseChildren_inv (ctx : FmtCtx)
    (rec2 : String → Nat → FmtState → FmtState)
    (hrec : ∀ c d s, Inv ctx s → Inv ctx (rec2 c d s))
    (ids : List String) (depth : Nat) (st : FmtState) (hInv : Inv ctx st) :
    Inv ctx (traverseChildren rec2 ids depth st) := by
  rw [traverseChildren]
  induction ids generalizing st with
  | nil => exact hInv
  | cons c cs ih =>
      rw [List.foldl_cons]
      exact ih (rec2 c depth st) (hrec c depth st hInv)

/-- One `traverse` body preserves the invariant. -/
theorem traverseBody_inv (ctx : FmtCtx)
    (rec2 : String → Nat → FmtState → FmtState) (node : AXNode) (depth : Nat)
    (st : FmtState)
    (hrec : ∀ c d s, Inv ctx s → Inv ctx (rec2 c d s))
    (hnode : node ∈ ctx.nodeMap.map Prod.snd)
    (hInv : Inv ctx st) :
    Inv ctx (traverseBody ctx rec2 node depth st) := by
  have hrecC : ∀ ids d s, Inv ctx s → Inv ctx (traverseChildren rec2 ids d s) :=
    fun ids d s hs => traverseChildren_inv ctx rec2 hrec ids d s hs
  simp only [traverseBody]
  split
  · -- ignored node: children only
    next hig =>
    exact hrecC _ _ _ (inv_addVisit_nq _ _ _ _ hInv hnode (by simp [qualifies, hig]))
  · next hig =>
    have hig' : node.ignored = false := by rw [Bool.not_eq_true] at hig; exact hig
    split
    · -- beyond the depth limit: stop
      next hdk =>
      have hdk' : depthOk ctx.opts depth = false := by
        rw [Bool.not_eq_true] at hdk; exact hdk
      exact inv_addVisit_nq _ _ _ _ hInv hnode (by simp [qualifies, hdk'])
    · next hdk =>
      have hdk' : depthOk ctx.opts depth = true := not_not.mp hdk
      split
      · -- noise role: children only
        next hsk =>
        have hmem : roleOf node ∈ SKIP_ROLES := (contains_iff_mem _ _).mp hsk
        have hfacts : ∀ r ∈ SKIP_ROLES, INTERACTIVE_ROLES.contains r = false ∧
            CONTENT_ROLES_WITH_REF.contains r = false := by decide
        have hsar : shouldAssignRef ctx.opts (roleOf node) = false :=
          shouldAssignRef_false_of_contains _ _ (hfacts _ hmem).1 (hfacts _ hmem).2
        exact hrecC _ _ _ (inv_addVisit_nq _ _ _ _ hInv hnode (by simp [qualifies, hsar]))
      · next hsk =>
        split
        · -- interactive mode, non-interactive role: children only
          next hint =>
          have hsar : shouldAssignRef ctx.opts (roleOf node) = false := by
            rw [shouldAssignRef_interactive _ _ hint.1]
            have h2 := hint.2
            rw [Bool.not_eq_true] at h2
            exact h2
          exact hrecC _ _ _ (inv_addVisit_nq _ _ _ _ hInv hnode (by simp [qualifies, hsar]))
        · next hint =>
          split
          · -- StaticText: a text line, or nothing
            next hstx =>
            have hsar : shouldAssignRef ctx.opts (roleOf node) = false := by
              rw [hstx]
              exact shouldAssignRef_false_of_contains _ _ (by decide) (by decide)
            split
            · next hnm =>
              exact inv_lines_append ctx _ _
                (inv_addVisit_nq _ _ _ _ hInv hnode (by simp [qualifies, hsar]))
            · next hnm =>
              exact inv_addVisit_nq _ _ _ _ hInv hnode (by simp [qualifies, hsar])
          · next hstx =>
            split
            · -- empty generic container: children only
              next hgen =>
              have hsar : shouldAssignRef ctx.opts (roleOf node) = false := by
                rcases hgen.1 with h | h <;>
                · rw [h]
                  exact shouldAssignRef_false_of_contains _ _ (by decide) (by decide)
              exact hrecC _ _ _ (inv_addVisit_nq _ _ _ _ hInv hnode
                (by simp [qualifies, hsar]))
            · next hgen =>
              -- the assignment branch
              have hInvA : ∀ extra : List String, Inv ctx
                  { (assignStep ctx.opts node depth (roleOf node) (trimmedName node)
                      { st with visits := st.visits ++ [(node, depth)] }).2 with
                    lines := (assignStep ctx.opts node depth (roleOf node)
                        (trimmedName node)
                        { st with visits := st.visits ++ [(node, depth)] }).2.lines ++
                      (assignStep ctx.opts node depth (roleOf node) (trimmedName node)
                        { st with visits := st.visits ++ [(node, depth)] }).1 ::
                        extra } := by
                intro extra
                by_cases hcond : shouldAssignRef ctx.opts (roleOf node) = true ∧
                    node.backendDOMNodeId.isSome = true
                · rw [assignStep_pos _ _ _ _ _ _ hcond.1 hcond.2]
                  exact inv_pushState ctx node depth st extra hInv hnode hig' hdk'
                    hcond.1 hcond.2
                · rw [assignStep_neg _ _ _ _ _ _ hcond]
                  refine inv_lines_append ctx _ _ (inv_addVisit_nq _ _ _ _ hInv hnode ?_)
                  rcases Bool.dichotomy (shouldAssignRef ctx.opts (roleOf node)) with
                    hs | hs
                  · simp [qualifies, hs]
                  · rcases Bool.dichotomy (node.backendDOMNodeId.isSome) with hb | hb
                    · simp [qualifies, hb]
                    · exact absurd ⟨hs, hb⟩ hcond
              split
              · -- link with url: two lines, then children
                next url heq =>
                exact hrecC _ _ _ (hInvA [indentStr (depth + 1) ++ "- /url: " ++ url])
              · next heq =>
                split
                · next hi2 => exact hInvA []
                · next hi2 => exact hrecC _ _ _ (hInvA [])

/-- The fuel-indexed `traverse` preserves the invariant. -/
theorem traverse_inv (ctx : FmtCtx) (fuel : Nat) :
    ∀ (nodeId : String) (depth : Nat) (st : FmtState), Inv ctx st →
      Inv ctx (traverse ctx fuel nodeId depth st) := by
  induction fuel with
  | zero => intro _ _ st h; exact h
  | succ f ih =>
      intro nodeId depth st h
      rw [traverse]
      cases hlook : amGet ctx.nodeMap nodeId with
      | none => exact h
      | some node =>
          exact traverseBody_inv ctx _ node depth st (fun c d s hs => ih c d s hs)
            (List.mem_map.mpr ⟨(nodeId, node), amGet_some_mem _ _ _ hlook, rfl⟩) h

/-- The empty starting state satisfies the invariant. -/
theorem inv_init (ctx : FmtCtx) : Inv ctx initFmtState := by
  refine ⟨rfl, rfl, fun k => rfl, fun k => rfl, List.nodup_nil, ?_, ?_, ?_, rfl,
    rfl, ?_, ?_, ?_⟩
  · intro l₁ e l₂ h
    have h2 : ([] : List (String × AXRefInfo)) = l₁ ++ e :: l₂ := h
    exact absurd h2 (by cases l₁ <;> simp)
  · intro e he
    exact absurd he (List.not_mem_nil e)
  · intro e he
    exact absurd he (List.not_mem_nil e)
  · intro v hv
    exact absurd hv (List.not_mem_nil v)
  · intro l hl
    exact absurd hl (List.not_mem_nil l)
  · intro i hi
    exact absurd hi (Nat.not_lt_zero i)

theorem mem_values_amSet [DecidableEq κ] (m : List (κ × α)) (k : κ) (v : α)
    (x : α) (h : x ∈ (amSet m k v).map Prod.snd) : x ∈ m.map Prod.snd ∨ x = v := by
  induction m with
  | nil =>
      simp [amSet] at h
      exact Or.inr h
  | cons e m ih =>
      obtain ⟨k', v'⟩ := e
      rw [amSet] at h
      by_cases hk : k' = k
      · rw [if_pos hk] at h
        rw [List.map_cons, List.mem_cons] at h
        rcases h with h | h
        · exact Or.inr h
        · exact Or.inl (by rw [List.map_cons]; exact List.mem_cons.mpr (Or.inr h))
      · rw [if_neg hk] at h
        rw [List.map_cons, List.mem_cons] at h
        rcases h with h | h
        · exact Or.inl (by rw [List.map_cons]; exact List.mem_cons.mpr (Or.inl h))
        · rcases ih h with h' | h'
          · exact Or.inl (by rw [List.map_cons]; exact List.mem_cons.mpr (Or.inr h'))
          · exact Or.inr h'

theorem values_foldl_amSet (nodes : List AXNode) :
    ∀ (m : List (String × AXNode)) (n : AXNode),
      n ∈ ((nodes.foldl (fun m n => amSet m n.nodeId n) m).map Prod.snd) →
      n ∈ m.map Prod.snd ∨ n ∈ nodes := by
  induction nodes with
  | nil => intro m n h; exact Or.inl h
  | cons x xs ih =>
      intro m n h
      rw [List.foldl_cons] at h
      rcases ih (amSet m x.nodeId x) n h with h' | h'
      · rcases mem_values_amSet m x.nodeId x n h' with h'' | h''
        · exact Or.inl h''
        · exact Or.inr (by rw [h'']; exact List.mem_cons_self _ _)
      · exact Or.inr (List.mem_cons_of_mem _ h')

/-- Clean input nodes give a clean node index. -/
theorem cleanCtx_of_cleanInputs (nodes : List AXNode) (urlMap : List (Nat × String))
    (opts : FormatOptions) (h : CleanInputs nodes) :
    CleanCtx ⟨nodes.foldl (fun m n => amSet m n.nodeId n) [], urlMap, opts⟩ := by
  intro n hn
  rcases values_foldl_amSet nodes [] n hn with h' | h'
  · exact absurd h' (by simp)
  · exact h n h'

/-- The final traversal state of every run satisfies the invariant. -/
theorem inv_formatAXTreeX (nodes : List AXNode) (urlMap : List (Nat × String))
    (opts : FormatOptions) :
    Inv ⟨nodes.foldl (fun m n => amSet m n.nodeId n) [], urlMap, opts⟩
      (formatAXTreeX nodes urlMap opts).st := by
  cases nodes with
  | nil => exact inv_init _
  | cons root rest =>
      exact traverse_inv ⟨(root :: rest).foldl (fun m n => amSet m n.nodeId n) [],
        urlMap, opts⟩ ((root :: rest).length + 1) root.nodeId 0 initFmtState
        (inv_init _)

/-- The derived components of a run, as computed from the traversal state. -/
theorem formatAXTreeX_eqs (nodes : List AXNode) (urlMap : List (Nat × String))
    (opts : FormatOptions) :
    (formatAXTreeX nodes urlMap opts).dupKeys =
      getDuplicateKeys (formatAXTreeX nodes urlMap opts).st.refsByKey ∧
    (formatAXTreeX nodes urlMap opts).refsFinal =
      removeNthFromNonDuplicates (formatAXTreeX nodes urlMap opts).st.refs
        (formatAXTreeX nodes urlMap opts).dupKeys ∧
    (formatAXTreeX nodes urlMap opts).cleanedLines =
      (formatAXTreeX nodes urlMap opts).st.lines.map
        (cleanLine (formatAXTreeX nodes urlMap opts).refsFinal
          (formatAXTreeX nodes urlMap opts).dupKeys) := by
  cases nodes with
  | nil => exact ⟨rfl, rfl, rfl⟩
  | cons root rest => exact ⟨rfl, rfl, rfl⟩

theorem refsFinal_map_fst (refs : List (String × AXRefInfo)) (dupKeys : List String) :
    (removeNthFromNonDuplicates refs dupKeys).map Prod.fst = refs.map Prod.fst := by
  rw [removeNthFromNonDuplicates, List.map_map]
  refine List.map_congr_left fun e he => ?_
  rw [Function.comp_apply]
  by_cases hd : dupKeys.contains (getKey e.2.role e.2.name) = true
  · rw [if_pos hd]
  · rw [if_neg hd]

theorem samePair_rmNth (dupKeys : List String) (e g : String × AXRefInfo) :
    samePair (if dupKeys.contains (getKey e.2.role e.2.name) then e
      else (e.1, { e.2 with nth := none }))
      (if dupKeys.contains (getKey g.2.role g.2.name) then g
        else (g.1, { g.2 with nth := none })) = samePair e g := by
  by_cases h1 : dupKeys.contains (getKey e.2.role e.2.name) = true <;>
    by_cases h2 : dupKeys.contains (getKey g.2.role g.2.name) = true
  · rw [if_pos h1, if_pos h2]
  · rw [if_pos h1, if_neg h2]
    rfl
  · rw [if_neg h1, if_pos h2]
    rfl
  · rw [if_neg h1, if_neg h2]
    rfl

theorem countP_samePair_map (l : List (String × AXRefInfo)) (dupKeys : List String)
    (e : String × AXRefInfo) :
    (l.map fun g => if dupKeys.contains (getKey g.2.role g.2.name) then g
      else (g.1, { g.2 with nth := none })).countP
      (samePair (if dupKeys.contains (getKey e.2.role e.2.name) then e
        else (e.1, { e.2 with nth := none }))) = l.countP (samePair e) := by
  rw [List.countP_map]
  refine List.countP_congr fun g hg => ?_
  rw [Function.comp_apply, samePair_rmNth]

theorem map_eq_append_cons {f : α → β} (l : List α) (l₁ : List β) (b : β)
    (l₂ : List β) (h : l.map f = l₁ ++ b :: l₂) :
    ∃ r₁ a r₂, l = r₁ ++ a :: r₂ ∧ r₁.map f = l₁ ∧ f a = b ∧ r₂.map f = l₂ := by
  induction l generalizing l₁ with
  | nil => cases l₁ <;> simp at h
  | cons x xs ih =>
      cases l₁ with
      | nil =>
          rw [List.map_cons, List.nil_append] at h
          injection h with h1 h2
          exact ⟨[], x, xs, rfl, rfl, h1, h2⟩
      | cons y ys =>
          rw [List.map_cons, List.cons_append] at h
          injection h with h1 h2
          obtain ⟨r₁, a, r₂, e1, e2, e3, e4⟩ := ih ys h2
          exact ⟨x :: r₁, a, r₂, by rw [e1]; rfl,
            by rw [List.map_cons, e2, h1], e3, e4⟩

/-- **C10.** In the reference table returned by `formatAXTree`, an entry's
duplicate-index field (`nth`) is present exactly when at least two table
entries share its (role, name) pair, and its value counts the earlier
same-pair entries in handle-assignment order, so within a duplicate group the
indices run 0, 1, 2, … and the first member keeps `nth = 0` in the table. -/
theorem c10_nth_group_semantics (nodes : List AXNode) (urlMap : List (Nat × String))
    (opts : FormatOptions) (l₁ : List (String × AXRefInfo)) (e : String × AXRefInfo)
    (l₂ : List (String × AXRefInfo))
    (hsplit : (formatAXTreeX nodes urlMap opts).refsFinal = l₁ ++ e :: l₂) :
    (e.2.nth ≠ none ↔
      1 < (formatAXTreeX nodes urlMap opts).refsFinal.countP (samePair e)) ∧
    (∀ n, e.2.nth = some n → n = l₁.countP (samePair e)) := by
  have hI := inv_formatAXTreeX nodes urlMap opts
  obtain ⟨hdk, hrf, _⟩ := formatAXTreeX_eqs nodes urlMap opts
  rw [hrf, removeNthFromNonDuplicates] at hsplit
  obtain ⟨r₁, e', r₂, hsp, hm1, hfe, hm2⟩ := map_eq_append_cons _ _ _ _ hsplit
  have hall : ∀ g ∈ (formatAXTreeX nodes urlMap opts).st.refs,
      ':' ∉ g.2.role.data ∧ g.2.name ≠ some "" :=
    fun g hg => ⟨(eligible_role_facts _ (hI.roles_ok g hg)).2.1, hI.name_ok g hg⟩
  have he'mem : e' ∈ (formatAXTreeX nodes urlMap opts).st.refs := by
    rw [hsp]
    exact List.mem_append_right _ (List.mem_cons_self _ _)
  have he'f := hall e' he'mem
  have hnth := hI.nth_ok r₁ e' r₂ hsp
  have hck : countKey (formatAXTreeX nodes urlMap opts).st.refs (entryKey e'.2) =
      (formatAXTreeX nodes urlMap opts).st.refs.countP (samePair e') :=
    countKey_eq_countP _ e' he'f.1 he'f.2 hall
  have hck1 : countKey r₁ (entryKey e'.2) = r₁.countP (samePair e') :=
    countKey_eq_countP _ e' he'f.1 he'f.2
      (fun g hg => hall g (by rw [hsp]; exact List.mem_append_left _ hg))
  have hdupiff : entryKey e'.2 ∈ (formatAXTreeX nodes urlMap opts).dupKeys ↔
      1 < countKey (formatAXTreeX nodes urlMap opts).st.refs (entryKey e'.2) := by
    rw [hdk]
    exact mem_dupKeys_iff _ _ _ hI.byKey_ok hI.byKey_nodup
  have hcnt2 : (formatAXTreeX nodes urlMap opts).refsFinal.countP (samePair e) =
      (formatAXTreeX nodes urlMap opts).st.refs.countP (samePair e') := by
    rw [← hfe, hrf, removeNthFromNonDuplicates]
    exact countP_samePair_map _ _ _
  have hcnt1 : l₁.countP (samePair e) = r₁.countP (samePair e') := by
    rw [← hfe, ← hm1]
    exact countP_samePair_map _ _ _
  have henth : e.2.nth =
      (if (formatAXTreeX nodes urlMap opts).dupKeys.contains
          (getKey e'.2.role e'.2.name) then e'.2.nth else none) := by
    rw [← hfe]
    by_cases hd : (formatAXTreeX nodes urlMap opts).dupKeys.contains
      (getKey e'.2.role e'.2.name) = true
    · rw [if_pos hd, if_pos hd]
    · rw [if_neg hd, if_neg hd]
  constructor
  · rw [hcnt2, ← hck]
    by_cases hd : (formatAXTreeX nodes urlMap opts).dupKeys.contains
      (getKey e'.2.role e'.2.name)
    · have h1 : 1 < countKey (formatAXTreeX nodes urlMap opts).st.refs
          (entryKey e'.2) := hdupiff.mp ((contains_iff_mem _ _).mp hd)
      exact ⟨fun _ => h1, fun _ => by rw [henth, if_pos hd, hnth]; simp⟩
    · have h1 : ¬ 1 < countKey (formatAXTreeX nodes urlMap opts).st.refs
          (entryKey e'.2) := fun hc =>
        absurd ((contains_iff_mem _ _).mpr (hdupiff.mpr hc)) hd
      refine ⟨fun hne => ?_, fun hc => absurd hc h1⟩
      rw [henth, if_neg hd] at hne
      exact absurd rfl hne
  · intro n hn
    rw [henth] at hn
    by_cases hd : (formatAXTreeX nodes urlMap opts).dupKeys.contains
      (getKey e'.2.role e'.2.name)
    · rw [if_pos hd, hnth] at hn
      injection hn with hn2
      rw [hcnt1, ← hck1]
      exact hn2.symm
    · rw [if_neg hd] at hn
      exact absurd hn (by simp)

/-- Witness for C10: the middle "Save" entry of the canonical duplicate
example. -/
theorem c10_nth_group_semantics_witness :
    ((("1", (⟨3, "button", some "Save", some 1⟩ : AXRefInfo)) :
        String × AXRefInfo).2.nth ≠ none ↔
      1 < (formatAXTreeX exSave [] defaultOpts).refsFinal.countP
        (samePair ("1", ⟨3, "button", some "Save", some 1⟩))) ∧
    (∀ n, (("1", (⟨3, "button", some "Save", some 1⟩ : AXRefInfo)) :
        String × AXRefInfo).2.nth = some n →
      n = ([("0", (⟨2, "button", some "Save", some 0⟩ : AXRefInfo))] :
        List (String × AXRefInfo)).countP
          (samePair ("1", ⟨3, "button", some "Save", some 1⟩))) :=
  c10_nth_group_semantics exSave [] defaultOpts
    [("0", ⟨2, "button", some "Save", some 0⟩)]
    ("1", ⟨3, "button", some "Save", some 1⟩)
    [("2", ⟨4, "button", some "Open", none⟩)] (by decide)

/-- **C1 (counterexample).** An ignored button with a backing element id is
the first reference-eligible node (eligible role and backing id) in
depth-first order, but the traversal skips ignored nodes before the
eligibility check, so handle "0" goes to the inner button (backing id 7)
instead of the first eligible node (backing id 5). -/
theorem c1_first_eligible_counterexample :
    (exIgnored.find? (claimEligible defaultOpts)).map AXNode.backendDOMNodeId =
      some (some 5) ∧
    (amGet (formatAXTree exIgnored [] defaultOpts).refs "0").map
      AXRefInfo.backendDOMNodeId = some 7 := by decide

/-- **C1 (amended).** The returned reference table's handles are exactly the
decimal strings "0", "1", … in order (hence pairwise distinct and sequential
from "0"), the i-th table entry records exactly the i-th visited node that
assigns a reference (not ignored, within the depth limit, eligible role,
backing id present) in depth-first visit order, and when no node is visited
twice the table has at most as many entries as input nodes. -/
theorem c1_handles_amended (nodes : List AXNode) (urlMap : List (Nat × String))
    (opts : FormatOptions) :
    ((formatAXTreeX nodes urlMap opts).refsFinal.map Prod.fst =
      (List.range (formatAXTreeX nodes urlMap opts).refsFinal.length).map natToStr) ∧
    ((formatAXTreeX nodes urlMap opts).refsFinal.map Prod.fst).Nodup ∧
    ((formatAXTreeX nodes urlMap opts).refsFinal.map (fun e => entryCore e.2) =
      ((formatAXTreeX nodes urlMap opts).st.visits.filter (qualifies opts)).map
        visitCore) ∧
    (((formatAXTreeX nodes urlMap opts).st.visits.map fun v => v.1.nodeId).Nodup →
      (formatAXTreeX nodes urlMap opts).refsFinal.length ≤ nodes.length) := by
  have hI := inv_formatAXTreeX nodes urlMap opts
  obtain ⟨hdk, hrf, _⟩ := formatAXTreeX_eqs nodes urlMap opts
  have hfst : (formatAXTreeX nodes urlMap opts).refsFinal.map Prod.fst =
      (formatAXTreeX nodes urlMap opts).st.refs.map Prod.fst := by
    rw [hrf]
    exact refsFinal_map_fst _ _
  have hlen : (formatAXTreeX nodes urlMap opts).refsFinal.length =
      (formatAXTreeX nodes urlMap opts).st.refs.length := by
    rw [hrf, removeNthFromNonDuplicates, List.length_map]
  refine ⟨?_, ?_, ?_, ?_⟩
  · rw [hfst, hlen]
    exact hI.handles
  · rw [hfst, hI.handles]
    exact List.Nodup.map (fun a b h => natToStr_inj a b h) (List.nodup_range _)
  · have hcore : (formatAXTreeX nodes urlMap opts).refsFinal.map
        (fun e => entryCore e.2) =
        (formatAXTreeX nodes urlMap opts).st.refs.map (fun e => entryCore e.2) := by
      rw [hrf, removeNthFromNonDuplicates, List.map_map]
      refine List.map_congr_left fun e he => ?_
      rw [Function.comp_apply]
      by_cases hd : (formatAXTreeX nodes urlMap opts).dupKeys.contains
        (getKey e.2.role e.2.name) = true
      · rw [if_pos hd]
      · rw [if_neg hd]
        rfl
    rw [hcore]
    exact hI.core_ok
  · intro hnd
    have h1 : (formatAXTreeX nodes urlMap opts).st.refs.length =
        ((formatAXTreeX nodes urlMap opts).st.visits.filter
          (qualifies opts)).length := by
      have h2 := congrArg List.length hI.core_ok
      rw [List.length_map, List.length_map] at h2
      exact h2
    have h2 : ((formatAXTreeX nodes urlMap opts).st.visits.filter
        (qualifies opts)).length ≤
        (formatAXTreeX nodes urlMap opts).st.visits.length :=
      List.length_filter_le _ _
    have h3 : (formatAXTreeX nodes urlMap opts).st.visits.length ≤ nodes.length := by
      have hsub : ((formatAXTreeX nodes urlMap opts).st.visits.map
          fun v => v.1.nodeId) ⊆ nodes.map AXNode.nodeId := by
        intro a ha
        obtain ⟨v, hv, rfl⟩ := List.mem_map.mp ha
        have hvm := hI.visits_src v hv
        rcases values_foldl_amSet nodes [] v.1 hvm with h' | h'
        · exact absurd h' (by simp)
        · exact List.mem_map_of_mem _ h'
      have h4 := (List.Nodup.subperm hnd hsub).length_le
      rw [List.length_map, List.length_map] at h4
      exact h4
    omega

/-- Witness for the amended C1: the canonical duplicate example has three
table entries for its four nodes. -/
theorem c1_handles_amended_witness :
    (formatAXTreeX exSave [] defaultOpts).refsFinal.length ≤ exSave.length :=
  (c1_handles_amended exSave [] defaultOpts).2.2.2 (by decide)

theorem get_of_map_eq {f : α → β} (l : List α) (g : List β) (h : g = l.map f)
    (i : Nat) (hg : i < g.length) (hl : i < l.length) :
    g.get ⟨i, hg⟩ = f (l.get ⟨i, hl⟩) := by
  subst h
  rw [List.get_eq_getElem, List.get_eq_getElem, List.getElem_map]

theorem get_eq_of_list_eq (l l' : List α) (h : l = l') (i : Nat)
    (hi : i < l.length) (hi' : i < l'.length) :
    l.get ⟨i, hi⟩ = l'.get ⟨i, hi'⟩ := by
  subst h
  rfl

theorem fst_get_of_handles (l : List (String × AXRefInfo))
    (h : l.map Prod.fst = (List.range l.length).map natToStr)
    (i : Nat) (hi : i < l.length) : (l.get ⟨i, hi⟩).1 = natToStr i := by
  have hx : i < (l.map Prod.fst).length := by rw [List.length_map]; exact hi
  have hy : i < (List.range l.length).length := by rw [List.length_range]; exact hi
  have hz : i < ((List.range l.length).map natToStr).length := by
    rw [List.length_map, List.length_range]
    exact hi
  have h1 : (l.map Prod.fst).get ⟨i, hx⟩ = (l.get ⟨i, hi⟩).1 :=
    get_of_map_eq l (l.map Prod.fst) rfl i hx hi
  have h4 : (l.map Prod.fst).get ⟨i, hx⟩ =
      ((List.range l.length).map natToStr).get ⟨i, hz⟩ :=
    get_eq_of_list_eq _ _ h i hx hz
  have h5 : ((List.range l.length).map natToStr).get ⟨i, hz⟩ =
      natToStr ((List.range l.length).get ⟨i, hy⟩) :=
    get_of_map_eq _ _ rfl i hz hy
  have h3 : (List.range l.length).get ⟨i, hy⟩ = i := by
    rw [List.get_eq_getElem, List.getElem_range]
  rw [← h1, h4, h5, h3]

/-- **C2 (counterexample).** Two reference-assigned buttons share the pair
(button, "x [ref=0]") — a display name spelling a marker of its own — so the
second occurrence's table entry carries `nth = 1`, yet the cleanup strips the
`[nth=1]` marker from its rendered line: the capture scan's leftmost `[ref=`
match sits inside the quoted name and resolves to the heading's entry, which
is in no duplicate group, so the marker is removed and no output line shows a
duplicate index. -/
theorem c2_cleanup_counterexample :
    ((formatAXTreeX exTricky [] defaultOpts).refsFinal.countP
      (samePair ("1", ⟨2, "button", some "x [ref=0]", some 0⟩)) = 2) ∧
    ((amGet (formatAXTreeX exTricky [] defaultOpts).refsFinal "2").map
      AXRefInfo.nth = some (some 1)) ∧
    ((formatAXTreeX exTricky [] defaultOpts).cleanedLines.all
      (fun l => !(jsIncludes l "[nth=")) = true) := by decide

/-- **C2 (amended).** On clean inputs (no display name or property value
spelling `[ref=` or `[nth=` of its own), the cleaned output line of the i-th
reference: is one of the snapshot's lines; shows no duplicate marker when no
earlier table entry shares its (role, name) pair (first occurrences and
singleton groups); and for the (k+1)-th occurrence of a shared pair (k ≥ 1)
ends in the inline 1-based marker `[nth=k]`, preceded by a marker-free
prefix — so the second occurrence is marked `[nth=1]`. -/
theorem c2_duplicate_markers_amended (nodes : List AXNode)
    (urlMap : List (Nat × String)) (opts : FormatOptions)
    (hclean : CleanInputs nodes) (i : Nat)
    (hi : i < (formatAXTreeX nodes urlMap opts).refsFinal.length)
    (hj : i < (formatAXTreeX nodes urlMap opts).st.refLines.length) :
    cleanLine (formatAXTreeX nodes urlMap opts).refsFinal
        (formatAXTreeX nodes urlMap opts).dupKeys
        ((formatAXTreeX nodes urlMap opts).st.refLines.get ⟨i, hj⟩) ∈
      (formatAXTreeX nodes urlMap opts).cleanedLines ∧
    (((formatAXTreeX nodes urlMap opts).refsFinal.take i).countP
        (samePair ((formatAXTreeX nodes urlMap opts).refsFinal.get ⟨i, hi⟩)) = 0 →
      jsIncludes (cleanLine (formatAXTreeX nodes urlMap opts).refsFinal
        (formatAXTreeX nodes urlMap opts).dupKeys
        ((formatAXTreeX nodes urlMap opts).st.refLines.get ⟨i, hj⟩)) "[nth="
        = false) ∧
    (∀ k, ((formatAXTreeX nodes urlMap opts).refsFinal.take i).countP
        (samePair ((formatAXTreeX nodes urlMap opts).refsFinal.get ⟨i, hi⟩)) = k →
      0 < k →
      ∃ p, cleanLine (formatAXTreeX nodes urlMap opts).refsFinal
          (formatAXTreeX nodes urlMap opts).dupKeys
          ((formatAXTreeX nodes urlMap opts).st.refLines.get ⟨i, hj⟩) =
        p ++ " [nth=" ++ natToStr k ++ "]" ∧
        jsIncludes p "[nth=" = false) := by
  have hI := inv_formatAXTreeX nodes urlMap opts
  obtain ⟨hdk, hrf, hcl⟩ := formatAXTreeX_eqs nodes urlMap opts
  have hcc : CleanCtx ⟨nodes.foldl (fun m n => amSet m n.nodeId n) [], urlMap, opts⟩ :=
    cleanCtx_of_cleanInputs nodes urlMap opts hclean
  have hlen : (formatAXTreeX nodes urlMap opts).refsFinal.length =
      (formatAXTreeX nodes urlMap opts).st.refs.length := by
    rw [hrf, removeNthFromNonDuplicates, List.length_map]
  have hi' : i < (formatAXTreeX nodes urlMap opts).st.refs.length := by
    rw [← hlen]
    exact hi
  have hsplit : (formatAXTreeX nodes urlMap opts).st.refs =
      (formatAXTreeX nodes urlMap opts).st.refs.take i ++
        ((formatAXTreeX nodes urlMap opts).st.refs.get ⟨i, hi'⟩) ::
        (formatAXTreeX nodes urlMap opts).st.refs.drop (i + 1) := by
    have h2 := List.drop_eq_getElem_cons hi'
    rw [List.get_eq_getElem, ← h2, List.take_append_drop]
  have hnth := hI.nth_ok _ _ _ hsplit
  obtain ⟨base, hbeq, hbclean⟩ := hI.line_spec i hi' hj
  have hnm : noMark base := hbclean hcc
  have hid : ((formatAXTreeX nodes urlMap opts).st.refs.get ⟨i, hi'⟩).1 =
      natToStr i := fst_get_of_handles _ hI.handles i hi'
  have hfei : (formatAXTreeX nodes urlMap opts).refsFinal.get ⟨i, hi⟩ =
      (if (formatAXTreeX nodes urlMap opts).dupKeys.contains
          (getKey ((formatAXTreeX nodes urlMap opts).st.refs.get ⟨i, hi'⟩).2.role
            ((formatAXTreeX nodes urlMap opts).st.refs.get ⟨i, hi'⟩).2.name) then
        (formatAXTreeX nodes urlMap opts).st.refs.get ⟨i, hi'⟩
      else (((formatAXTreeX nodes urlMap opts).st.refs.get ⟨i, hi'⟩).1,
        { ((formatAXTreeX nodes urlMap opts).st.refs.get ⟨i, hi'⟩).2 with
          nth := none })) :=
    get_of_map_eq _ _ (by rw [hrf, removeNthFromNonDuplicates]) i hi hi'
  have hallrefs : ∀ g ∈ (formatAXTreeX nodes urlMap opts).st.refs,
      ':' ∉ g.2.role.data ∧ g.2.name ≠ some "" :=
    fun g hg => ⟨(eligible_role_facts _ (hI.roles_ok g hg)).2.1, hI.name_ok g hg⟩
  have heif := hallrefs _ (List.get_mem _ i hi')
  have hKtrans : ((formatAXTreeX nodes urlMap opts).refsFinal.take i).countP
      (samePair ((formatAXTreeX nodes urlMap opts).refsFinal.get ⟨i, hi⟩)) =
      countKey ((formatAXTreeX nodes urlMap opts).st.refs.take i)
        (entryKey ((formatAXTreeX nodes urlMap opts).st.refs.get ⟨i, hi'⟩).2) := by
    have htake : (formatAXTreeX nodes urlMap opts).refsFinal.take i =
        ((formatAXTreeX nodes urlMap opts).st.refs.take i).map
          (fun e => if (formatAXTreeX nodes urlMap opts).dupKeys.contains
              (getKey e.2.role e.2.name) then e
            else (e.1, { e.2 with nth := none })) := by
      rw [hrf, removeNthFromNonDuplicates]
      exact (List.map_take _ _ _).symm
    rw [hfei, htake, countP_samePair_map]
    exact (countKey_eq_countP _ _ heif.1 heif.2
      (fun g hg => hallrefs g (List.take_subset i _ hg))).symm
  rw [hid, hnth] at hbeq
  simp only [Option.getD_some] at hbeq
  have hflatK0 : (base ++ " [ref=" ++ natToStr i ++ "]").data =
      base.data ++ (" [ref=".data ++ ((natToStr i).data ++ [']'])) := by
    simp only [String.data_append, List.append_assoc,
      show ("]" : String).data = [']'] from rfl]
  have hnosub : hasSubL "[nth=".data
      (base ++ " [ref=" ++ natToStr i ++ "]").data = false := by
    rw [hflatK0]
    exact no_nth_base_refseg base.data (natToStr i).data hnm.2
      (natToStr_all_digits i)
  refine ⟨?_, ?_, ?_⟩
  · rw [hcl]
    exact List.mem_map_of_mem _ (hI.lines_mem _ (List.get_mem _ i hj))
  · intro h0
    have hK0 : countKey ((formatAXTreeX nodes urlMap opts).st.refs.take i)
        (entryKey ((formatAXTreeX nodes urlMap opts).st.refs.get ⟨i, hi'⟩).2) = 0 := by
      rw [← hKtrans]
      exact h0
    rw [hbeq, hK0, if_neg (Nat.lt_irrefl 0), String.append_empty]
    rw [cleanLine_id_of_no_nth _ _ _ hnosub]
    exact hnosub
  · intro k hk h0k
    have hKk : countKey ((formatAXTreeX nodes urlMap opts).st.refs.take i)
        (entryKey ((formatAXTreeX nodes urlMap opts).st.refs.get ⟨i, hi'⟩).2) = k := by
      rw [← hKtrans]
      exact hk
    rw [hbeq, hKk, if_pos h0k]
    have hgrp : 1 < countKey (formatAXTreeX nodes urlMap opts).st.refs
        (entryKey ((formatAXTreeX nodes urlMap opts).st.refs.get ⟨i, hi'⟩).2) := by
      have h6 := congrArg (fun l => countKey l
        (entryKey ((formatAXTreeX nodes urlMap opts).st.refs.get ⟨i, hi'⟩).2)) hsplit
      simp only at h6
      rw [countKey, countKey, List.countP_append, List.countP_cons] at h6
      simp only [beq_self_eq_true, if_true] at h6
      have h7 : List.countP (fun e => entryKey e.2 ==
          entryKey ((formatAXTreeX nodes urlMap opts).st.refs.get ⟨i, hi'⟩).2)
          ((formatAXTreeX nodes urlMap opts).st.refs.take i) = k := hKk
      rw [countKey, h6, h7]
      omega
    have hdupmem : entryKey ((formatAXTreeX nodes urlMap opts).st.refs.get
        ⟨i, hi'⟩).2 ∈ (formatAXTreeX nodes urlMap opts).dupKeys := by
      rw [hdk]
      exact (mem_dupKeys_iff _ _ _ hI.byKey_ok hI.byKey_nodup).mpr hgrp
    have hnd2 : ((formatAXTreeX nodes urlMap opts).refsFinal.map Prod.fst).Nodup := by
      rw [show (formatAXTreeX nodes urlMap opts).refsFinal.map Prod.fst =
          (formatAXTreeX nodes urlMap opts).st.refs.map Prod.fst from by
        rw [hrf]; exact refsFinal_map_fst _ _, hI.handles]
      exact List.Nodup.map (fun a b h => natToStr_inj a b h) (List.nodup_range _)
    have hget0 := amGet_get_of_nodup (formatAXTreeX nodes urlMap opts).refsFinal
      hnd2 i hi
    have hid2 : ((formatAXTreeX nodes urlMap opts).refsFinal.get ⟨i, hi⟩).1 =
        natToStr i := by
      rw [hfei]
      by_cases hd : (formatAXTreeX nodes urlMap opts).dupKeys.contains
        (getKey ((formatAXTreeX nodes urlMap opts).st.refs.get ⟨i, hi'⟩).2.role
          ((formatAXTreeX nodes urlMap opts).st.refs.get ⟨i, hi'⟩).2.name) = true
      · rw [if_pos hd]
        exact hid
      · rw [if_neg hd]
        exact hid
    rw [hid2] at hget0
    have hkey2 : getKey ((formatAXTreeX nodes urlMap opts).refsFinal.get
          ⟨i, hi⟩).2.role
        ((formatAXTreeX nodes urlMap opts).refsFinal.get ⟨i, hi⟩).2.name =
        entryKey ((formatAXTreeX nodes urlMap opts).st.refs.get ⟨i, hi'⟩).2 := by
      rw [hfei]
      by_cases hd : (formatAXTreeX nodes urlMap opts).dupKeys.contains
        (getKey ((formatAXTreeX nodes urlMap opts).st.refs.get ⟨i, hi'⟩).2.role
          ((formatAXTreeX nodes urlMap opts).st.refs.get ⟨i, hi'⟩).2.name) = true
      · rw [if_pos hd]
        rfl
      · rw [if_neg hd]
        rfl
    have hdup2 : (formatAXTreeX nodes urlMap opts).dupKeys.contains
        (getKey ((formatAXTreeX nodes urlMap opts).refsFinal.get ⟨i, hi⟩).2.role
          ((formatAXTreeX nodes urlMap opts).refsFinal.get ⟨i, hi⟩).2.name)
        = true := by
      rw [hkey2]
      exact (contains_iff_mem _ _).mpr hdupmem
    have hclid := cleanLine_id_dup (formatAXTreeX nodes urlMap opts).refsFinal
      (formatAXTreeX nodes urlMap opts).dupKeys base i k
      ((formatAXTreeX nodes urlMap opts).refsFinal.get ⟨i, hi⟩).2 hnm.1 hnm.2
      h0k hget0 hdup2
    refine ⟨base ++ " [ref=" ++ natToStr i ++ "]", ?_, hnosub⟩
    rw [hclid]
    simp only [String.append_assoc]

/-- Witness for the amended C2: the first "Save" line of the canonical
duplicate example keeps no marker. -/
theorem c2_duplicate_markers_amended_witness :
    jsIncludes (cleanLine (formatAXTreeX exSave [] defaultOpts).refsFinal
      (formatAXTreeX exSave [] defaultOpts).dupKeys
      ((formatAXTreeX exSave [] defaultOpts).st.refLines.get ⟨0, by decide⟩))
      "[nth=" = false :=
  (c2_duplicate_markers_amended exSave [] defaultOpts
    (by
      intro n hn
      simp only [exSave, List.mem_cons, List.not_mem_nil, or_false] at hn
      rcases hn with rfl | rfl | rfl | rfl <;>
        exact ⟨⟨by decide, by decide⟩, fun p hp => absurd hp (List.not_mem_nil p)⟩)
    0 (by decide) (by decide)).2.1 (by decide)

end BB
